import Mathlib

/-!
Verification of the snapshot-and-diff engine of `webpage_tracker.py`.

The development shallowly embeds the parts of the program the claims are
about:

* `analyze_changes` (source lines 300–357) together with the
  `difflib.SequenceMatcher` machinery it calls: `b2j` construction with
  autojunk, `find_longest_match`, `get_matching_blocks`, `get_opcodes`.
* `get_previous_version` (lines 225–243).
* `extract_text_content` (lines 245–298) over a tree model of the parsed
  document.
* `_download_and_embed_css` (lines 153–168) over the same tree model.

Machine integers do not occur (Python ints are unbounded); Python floats
produced by `analyze_changes` are modelled as exact rationals.  Loops are
embedded as structural recursions; `while` loops carry an explicit bound
(fuel) that is chosen at each call site so that it can never be exhausted
before the loop condition fails, as proved by the bound lemmas below.
-/

namespace WebTracker

/-! ### difflib.SequenceMatcher

`SequenceMatcher(None, a, b)` for lists of strings.  `isjunk` is `None`,
so `bjunk` is empty and the two junk-extension loops of
`find_longest_match` never run; `autojunk` is on, so an element of `b` is
dropped from `b2j` when `len(b) >= 200` and the element occurs more than
`len(b) // 100 + 1` times.
-/

/-- A `(besti, bestj, bestsize)` triple, also used for matching blocks. -/
abbrev Best := Nat × Nat × Nat

/-- The positions at which `x` occurs in `b`, in increasing order: the
list `b2j[x]` built by `__chain_b` before junk elimination. -/
def indicesOf (b : List String) (x : String) : List Nat :=
  (List.range b.length).filter (fun j => b.getD j "" = x)

/-- `b2j` with autojunk applied: when `len(b) >= 200`, an element occurring
more than `len(b) // 100 + 1` times is deleted from the dictionary, so a
lookup returns the empty list. -/
def b2jFun (b : List String) (x : String) : List Nat :=
  if 200 ≤ b.length ∧ b.length / 100 + 1 < b.count x then []
  else indicesOf b x

/-- `j2len.get(j, 0)` on the dictionary modelled as an association list. -/
def j2lenGet (m : List (Nat × Nat)) (j : Nat) : Nat :=
  (m.lookup j).getD 0

/-- The inner loop of `find_longest_match`:
`for j in b2j.get(a[i], nothing)` with its `continue` (`j < blo`),
`break` (`j >= bhi`), the update `newj2len[j] = k = j2len.get(j-1, 0) + 1`
and the best-match update when `k > bestsize`.  Python's `j2len.get(j-1, 0)`
at `j = 0` looks up the absent key `-1`, hence the explicit guard.
`besti = i-k+1` and `bestj = j-k+1` are written `i+1-k`, `j+1-k`, which
agree with Python since `k ≤ i+1` and `k ≤ j+1` (proved below). -/
def innerLoop (i blo bhi : Nat) (j2len : List (Nat × Nat)) :
    List Nat → List (Nat × Nat) → Best → List (Nat × Nat) × Best
  | [], newj2len, best => (newj2len, best)
  | j :: js, newj2len, best =>
    if j < blo then innerLoop i blo bhi j2len js newj2len best
    else if bhi ≤ j then (newj2len, best)
    else
      let k := (if j = 0 then 0 else j2lenGet j2len (j - 1)) + 1
      let best' := if best.2.2 < k then (i + 1 - k, j + 1 - k, k) else best
      innerLoop i blo bhi j2len js ((j, k) :: newj2len) best'

/-- The outer loop `for i in range(alo, ahi)` of `find_longest_match`,
with the remaining iteration count as the recursion argument; each
iteration runs the inner loop on a fresh `newj2len` and replaces `j2len`
by it. -/
def outerLoop (a : List String) (b2j : String → List Nat) (blo bhi : Nat) :
    Nat → Nat → List (Nat × Nat) → Best → Best
  | _, 0, _, best => best
  | i, n + 1, j2len, best =>
    let r := innerLoop i blo bhi j2len (b2j (a.getD i "")) [] best
    outerLoop a b2j blo bhi (i + 1) n r.1 r.2

/-- The first extension loop of `find_longest_match` (extend the match
backwards over equal elements; the junk test `isbjunk` is constantly
false since `bjunk` is empty).  Each iteration decrements `besti`, which
stays above `alo ≥ 0`, so fuel `besti` can never run out before the
condition fails. -/
def extendBackward (a b : List String) (alo blo : Nat) :
    Nat → Nat → Nat → Nat → Best
  | 0, besti, bestj, bestsize => (besti, bestj, bestsize)
  | fuel + 1, besti, bestj, bestsize =>
    if alo < besti ∧ blo < bestj ∧ a.getD (besti - 1) "" = b.getD (bestj - 1) "" then
      extendBackward a b alo blo fuel (besti - 1) (bestj - 1) (bestsize + 1)
    else (besti, bestj, bestsize)

/-- The second extension loop (extend forwards over equal elements).
Each iteration increments `bestsize` while `besti + bestsize < ahi`, so
fuel `ahi - (besti + bestsize)` can never run out before the condition
fails. -/
def extendForward (a b : List String) (ahi bhi besti bestj : Nat) :
    Nat → Nat → Nat
  | 0, bestsize => bestsize
  | fuel + 1, bestsize =>
    if besti + bestsize < ahi ∧ bestj + bestsize < bhi ∧
        a.getD (besti + bestsize) "" = b.getD (bestj + bestsize) "" then
      extendForward a b ahi bhi besti bestj fuel (bestsize + 1)
    else bestsize

/-- `find_longest_match(alo, ahi, blo, bhi)`. -/
def findLongestMatch (a b : List String) (b2j : String → List Nat)
    (alo ahi blo bhi : Nat) : Best :=
  let m := outerLoop a b2j blo bhi alo (ahi - alo) [] (alo, blo, 0)
  let m' := extendBackward a b alo blo m.1 m.1 m.2.1 m.2.2
  (m'.1, m'.2.1, extendForward a b ahi bhi m'.1 m'.2.1 (ahi - (m'.1 + m'.2.2)) m'.2.2)

/-- The divide-and-conquer phase of `get_matching_blocks`.  Python keeps
the pending rectangles on an explicit queue, collects the found blocks in
arbitrary order and then sorts the `(i, j, size)` triples; because the
blocks of the left sub-rectangle all have `i < besti` and those of the
right sub-rectangle all have `i > besti`, the sorted list is exactly the
in-order traversal produced by this recursion.  The rectangle measure
`(ahi - alo) + (bhi - blo)` strictly decreases on each sub-rectangle
(lemma `findLongestMatch_bounds` below), so the fuel chosen at the call
site is never exhausted. -/
def matchingBlocksAux (a b : List String) (b2j : String → List Nat) :
    Nat → Nat → Nat → Nat → Nat → List Best
  | 0, _, _, _, _ => []
  | fuel + 1, alo, ahi, blo, bhi =>
    let m := findLongestMatch a b b2j alo ahi blo bhi
    if m.2.2 = 0 then []
    else
      (if alo < m.1 ∧ blo < m.2.1 then
        matchingBlocksAux a b b2j fuel alo m.1 blo m.2.1
      else []) ++
      m :: (if m.1 + m.2.2 < ahi ∧ m.2.1 + m.2.2 < bhi then
        matchingBlocksAux a b b2j fuel (m.1 + m.2.2) ahi (m.2.1 + m.2.2) bhi
      else [])

/-- The second phase of `get_matching_blocks`: collapse adjacent blocks.
The arguments `i1, j1, k1` are the accumulator variables of the Python
loop (initially `0, 0, 0`). -/
def mergeAdjacent : Nat → Nat → Nat → List Best → List Best
  | i1, j1, k1, [] => if k1 ≠ 0 then [(i1, j1, k1)] else []
  | i1, j1, k1, m :: rest =>
    if i1 + k1 = m.1 ∧ j1 + k1 = m.2.1 then mergeAdjacent i1 j1 (k1 + m.2.2) rest
    else (if k1 ≠ 0 then [(i1, j1, k1)] else []) ++ mergeAdjacent m.1 m.2.1 m.2.2 rest

/-- `get_matching_blocks()`: divide and conquer, merge adjacent blocks,
append the sentinel `(len(a), len(b), 0)`. -/
def getMatchingBlocks (a b : List String) : List Best :=
  mergeAdjacent 0 0 0
    (matchingBlocksAux a b (b2jFun b) (a.length + b.length + 1) 0 a.length 0 b.length)
  ++ [(a.length, b.length, 0)]

/-- Opcode tags. -/
inductive Tag where
  | replace
  | delete
  | insert
  | equal
deriving DecidableEq, Repr

/-- One opcode `(tag, i1, i2, j1, j2)`. -/
structure Op where
  tag : Tag
  i1 : Nat
  i2 : Nat
  j1 : Nat
  j2 : Nat
deriving DecidableEq, Repr

/-- The loop body of `get_opcodes()`: walk the matching blocks, emitting a
`replace`/`delete`/`insert` opcode for the gap before each block and an
`equal` opcode for the block itself when its size is nonzero. -/
def getOpcodesAux : Nat → Nat → List Best → List Op
  | _, _, [] => []
  | i, j, m :: rest =>
    (if i < m.1 ∧ j < m.2.1 then [⟨.replace, i, m.1, j, m.2.1⟩]
     else if i < m.1 then [⟨.delete, i, m.1, j, m.2.1⟩]
     else if j < m.2.1 then [⟨.insert, i, m.1, j, m.2.1⟩]
     else []) ++
    (if m.2.2 ≠ 0 then [⟨.equal, m.1, m.1 + m.2.2, m.2.1, m.2.1 + m.2.2⟩] else []) ++
    getOpcodesAux (m.1 + m.2.2) (m.2.1 + m.2.2) rest

/-- `SequenceMatcher(None, a, b).get_opcodes()`. -/
def getOpcodes (a b : List String) : List Op :=
  getOpcodesAux 0 0 (getMatchingBlocks a b)

/-! ### Bounds of find_longest_match

The returned triple `(besti, bestj, bestsize)` with `bestsize ≠ 0`
satisfies `alo ≤ besti`, `blo ≤ bestj`, `besti + bestsize ≤ ahi` and
`bestj + bestsize ≤ bhi`; with `bestsize = 0` the match start is
`(alo, blo)`.  These facts justify the fuel chosen for the recursion of
`matchingBlocksAux` and give the monotone-chain structure of the
matching blocks. -/

/-- Invariant of a `j2len` row while iteration `i` is being processed:
every recorded run length fits between `alo` and `i`, and between `blo`
and its own column. -/
def RowOK (alo blo bhi i : Nat) (m : List (Nat × Nat)) : Prop :=
  ∀ p ∈ m, p.2 + alo ≤ i ∧ blo ≤ p.1 ∧ p.1 < bhi ∧ p.2 + blo ≤ p.1 + 1

/-- Invariant of the running best match. -/
def BestOK (alo ahi blo bhi : Nat) (t : Best) : Prop :=
  (t.2.2 = 0 → t.1 = alo ∧ t.2.1 = blo) ∧ alo ≤ t.1 ∧ blo ≤ t.2.1 ∧
  (t.2.2 ≠ 0 → t.1 + t.2.2 ≤ ahi ∧ t.2.1 + t.2.2 ≤ bhi)

/-! ### analyze_changes (source lines 300–357) -/

/-- The `changes` dictionary returned by `analyze_changes`.  Counts are
Python ints restricted to ℕ (they are sums of span lengths);
`net_change` can be negative and is an ℤ; the float
`change_percentage` is modelled as an exact rational. -/
structure Changes where
  added : Nat
  removed : Nat
  modified : Nat
  unchanged : Nat
  total_changes : Nat
  change_percentage : ℚ
  old_total : Nat
  new_total : Nat
  net_change : Int
deriving DecidableEq, Repr

/-- The body of `for tag, i1, i2, j1, j2 in matcher.get_opcodes()`
(source lines 318–329). -/
def applyOp (c : Changes) (op : Op) : Changes :=
  match op.tag with
  | .replace =>
      { c with modified := c.modified + max (op.i2 - op.i1) (op.j2 - op.j1),
               total_changes := c.total_changes + max (op.i2 - op.i1) (op.j2 - op.j1) }
  | .delete =>
      { c with removed := c.removed + (op.i2 - op.i1),
               total_changes := c.total_changes + (op.i2 - op.i1) }
  | .insert =>
      { c with added := c.added + (op.j2 - op.j1),
               total_changes := c.total_changes + (op.j2 - op.j1) }
  | .equal =>
      { c with unchanged := c.unchanged + (op.i2 - op.i1) }

/-- `analyze_changes(old_text_sections, new_text_sections)` (lines
300–343; the `except` fallback of lines 345–357 is unreachable in the
embedding, whose operations are total). -/
def analyze_changes (old_text_sections new_text_sections : List String) : Changes :=
  let c := (getOpcodes old_text_sections new_text_sections).foldl applyOp
    { added := 0, removed := 0, modified := 0, unchanged := 0, total_changes := 0,
      change_percentage := 0, old_total := 0, new_total := 0, net_change := 0 }
  let total_sections := old_text_sections.length + new_text_sections.length
  { c with
    change_percentage :=
      if 0 < total_sections then
        (c.total_changes : ℚ) / (total_sections : ℚ) * 100
      else 0,
    old_total := old_text_sections.length,
    new_total := new_text_sections.length,
    net_change := (new_text_sections.length : Int) - (old_text_sections.length : Int) }

/-- The fallback dictionary built by the `except` branch of
`analyze_changes` (source lines 347–357). -/
def analyzeChangesFallback (old_text_sections new_text_sections : List String) : Changes :=
  { added := 0, removed := 0, modified := 0, unchanged := 0, total_changes := 0,
    change_percentage := 0,
    old_total := old_text_sections.length,
    new_total := new_text_sections.length,
    net_change := (new_text_sections.length : Int) - (old_text_sections.length : Int) }

/-! ### The matching blocks form a monotone chain

Walking the matching blocks from position `(0, 0)`, each block starts at
or after the current position and ends inside `[0, len a] × [0, len b]`;
the sentinel ends the walk exactly at `(len a, len b)`.  Consequently the
opcodes produced by `get_opcodes` tile both index ranges. -/

/-- `Chain ahi bhi x y l`: from position `(x, y)` the blocks of `l` are
monotonically increasing and bounded by `(ahi, bhi)`. -/
def Chain (ahi bhi : Nat) : Nat → Nat → List Best → Prop
  | _, _, [] => True
  | x, y, m :: rest =>
    x ≤ m.1 ∧ y ≤ m.2.1 ∧ m.1 + m.2.2 ≤ ahi ∧ m.2.1 + m.2.2 ≤ bhi ∧
    Chain ahi bhi (m.1 + m.2.2) (m.2.1 + m.2.2) rest

/-- The final walk position of a block list. -/
def endPos : Nat → Nat → List Best → Nat × Nat
  | i, j, [] => (i, j)
  | _, _, m :: rest => endPos (m.1 + m.2.2) (m.2.1 + m.2.2) rest

/-- Sum of the old-side span lengths of an opcode list. -/
def opsSumOld (ops : List Op) : Nat := (ops.map (fun o => o.i2 - o.i1)).sum

/-- Sum of the new-side span lengths of an opcode list. -/
def opsSumNew (ops : List Op) : Nat := (ops.map (fun o => o.j2 - o.j1)).sum

/-! ### Spec-side statistics formulas (spec §4.4)

These definitions follow the specification's words, to be compared with
the embedded code: each Replace run contributes
`max(len oldSpan, len newSpan)` to `modified` and `totalChanges`, each
Delete run its old-span length to `removed` and `totalChanges`, each
Insert run its new-span length to `added` and `totalChanges`, each Equal
run its length to `unchanged`. -/

/-- Modelled from the spec: total of the Insert contributions. -/
def specAdded (ops : List Op) : Nat :=
  (ops.map (fun o => match o.tag with | .insert => o.j2 - o.j1 | _ => 0)).sum

/-- Modelled from the spec: total of the Delete contributions. -/
def specRemoved (ops : List Op) : Nat :=
  (ops.map (fun o => match o.tag with | .delete => o.i2 - o.i1 | _ => 0)).sum

/-- Modelled from the spec: total of the Replace contributions. -/
def specModified (ops : List Op) : Nat :=
  (ops.map (fun o => match o.tag with
    | .replace => max (o.i2 - o.i1) (o.j2 - o.j1) | _ => 0)).sum

/-- Modelled from the spec: total of the Equal lengths. -/
def specUnchanged (ops : List Op) : Nat :=
  (ops.map (fun o => match o.tag with | .equal => o.i2 - o.i1 | _ => 0)).sum

/-- Modelled from the spec: every non-Equal opcode's contribution to
`totalChanges`. -/
def specTotalChanges (ops : List Op) : Nat :=
  (ops.map (fun o => match o.tag with
    | .replace => max (o.i2 - o.i1) (o.j2 - o.j1)
    | .delete => o.i2 - o.i1
    | .insert => o.j2 - o.j1
    | .equal => 0)).sum

/-! ### Self-diff produces one full Equal run

For `SequenceMatcher(None, a, a)` the main loop of `find_longest_match`
always keeps its running best match on the diagonal (`besti = bestj`):
an off-diagonal run ending at `(i, j)` is never longer than the diagonal
run ending at column `min i j`, which has already been recorded by the
time `(i, j)` is examined.  The two extension loops then stretch a
diagonal match over the whole sequence, since adjacent elements are
trivially equal.  This holds for any `b2j` table that lists, for some
set of elements, exactly the positions of that element (so in particular
with autojunk filtering). -/

/-- Length of the diagonal run ending at column `j`: the number of
consecutive positions up to `j` whose element is listed in `b2j`. -/
def diagRun (a : List String) (b2j : String → List Nat) : Nat → Nat
  | 0 => if 0 ∈ b2j (a.getD 0 "") then 1 else 0
  | j + 1 => if (j + 1) ∈ b2j (a.getD (j + 1) "") then diagRun a b2j j + 1 else 0

/-! ### get_previous_version (source lines 225–243)

`get_previous_version` lists `site_dir.glob("*.html")`, returns `None`
when fewer than two files exist, sorts the paths with
`html_files.sort(reverse=True)` and returns `html_files[1]`.  All the
globbed paths live in one directory, so `pathlib`'s componentwise path
order reduces to Python's string order on the file names; the state is
therefore modelled as the list of archived file names. -/

/-- Python's `<` on strings: lexicographic order on code points. -/
def lexLt : List Char → List Char → Bool
  | [], [] => false
  | [], _ :: _ => true
  | _ :: _, [] => false
  | a :: as, b :: bs => if a < b then true else if a = b then lexLt as bs else false

/-- `x < y` for Python strings. -/
def strLtB (x y : String) : Bool := lexLt x.data y.data

/-- Insert into a descending-sorted list (before the first strictly
smaller element). -/
def insertDesc (x : String) : List String → List String
  | [] => [x]
  | y :: ys => if strLtB x y then y :: insertDesc x ys else x :: y :: ys

/-- `list.sort(reverse=True)` on strings.  Python's sort is a stable
descending sort; equal sort keys are identical strings here, so its
output coincides with this insertion sort (a permutation sorted by the
same total order is unique). -/
def sortDesc : List String → List String
  | [] => []
  | x :: xs => insertDesc x (sortDesc xs)

/-- `get_previous_version` (lines 225–243): `None` with fewer than two
archived files, otherwise the second entry of the descending sort. -/
def get_previous_version (html_files : List String) : Option String :=
  if html_files.length < 2 then none
  else (sortDesc html_files)[1]?

/-! ### Document model (BeautifulSoup trees)

A parsed document is a forest of nodes; an element node carries its tag,
its attributes and its children.  `find_all` is a preorder traversal
(document order), `get_text()` concatenates all descendant text, and
`decompose()` removes a subtree wholesale.  Python's `str.strip`,
`str.startswith` and `len` are embedded at the code-point level. -/

inductive Node where
  | text (s : String)
  | elem (tag : String) (attrs : List (String × String)) (children : List Node)

/-- Python `s.strip()`: remove leading and trailing whitespace. -/
def pyStrip (s : String) : String :=
  String.mk (((s.data.dropWhile Char.isWhitespace).reverse.dropWhile
    Char.isWhitespace).reverse)

/-- Python `s.startswith(pre)`. -/
def pyStartsWith (s pre : String) : Bool :=
  pre.data.isPrefixOf s.data

/-- `tag.get(name, '')`: attribute lookup with default `''`. -/
def getAttr (n : Node) (name : String) : String :=
  match n with
  | .text _ => ""
  | .elem _ attrs _ => (attrs.lookup name).getD ""

mutual
/-- `node.get_text()`: concatenation of all descendant text. -/
def getText : Node → String
  | .text s => s
  | .elem _ _ ch => getTextList ch
/-- `get_text()` of a forest. -/
def getTextList : List Node → String
  | [] => ""
  | c :: cs => getText c ++ getTextList cs
end

mutual
/-- `find_all(tags)` including the node itself when it matches. -/
def findAllNode (tags : List String) : Node → List Node
  | .text _ => []
  | .elem t attrs ch =>
    (if tags.contains t then [Node.elem t attrs ch] else []) ++ findAllList tags ch
/-- `soup.find_all(tags)` over a forest: all element nodes whose tag is
in `tags`, in document (preorder) order. -/
def findAllList (tags : List String) : List Node → List Node
  | [] => []
  | c :: cs => findAllNode tags c ++ findAllList tags cs
end

/-- `element.find_all(tags)`: `find_all` searches the descendants of the
element, not the element itself. -/
def findAllIn (tags : List String) : Node → List Node
  | .text _ => []
  | .elem _ _ ch => findAllList tags ch

mutual
/-- One step of `decompose()`: drop the node when its tag matches, else
keep it and strip its children. -/
def stripTagsNode (tags : List String) : Node → List Node
  | .text s => [.text s]
  | .elem t attrs ch =>
    if tags.contains t then [] else [.elem t attrs (stripTagsList tags ch)]
/-- `for el in soup(tags): el.decompose()` — remove every element whose
tag is in `tags`, together with its entire subtree. -/
def stripTagsList (tags : List String) : List Node → List Node
  | [] => []
  | c :: cs => stripTagsNode tags c ++ stripTagsList tags cs
end

mutual
/-- A node's element nodes (itself included) in preorder. -/
def elemsNode : Node → List Node
  | .text _ => []
  | .elem t attrs ch => Node.elem t attrs ch :: elemsList ch
/-- All element nodes of a forest in document (preorder) order. -/
def elemsList : List Node → List Node
  | [] => []
  | c :: cs => elemsNode c ++ elemsList cs
end

/-- Element-tag membership test, as a Boolean predicate on nodes. -/
def tagIn (tags : List String) : Node → Bool
  | .text _ => false
  | .elem t _ _ => tags.contains t

/-- The element nodes of the script/style/noscript-stripped document, in
document order. -/
def docElems (doc : List Node) : List Node :=
  elemsList (stripTagsList ["script", "style", "noscript"] doc)

/-- `extract_text_content` (source lines 245–298): strip script, style
and noscript blocks, then collect the title, the headings level by
level, the paragraphs longer than 10 characters, the list items of every
ul/ol element, and the hyperlinks with short-URL filtering. -/
def extract_text_content (doc : List Node) : List String :=
  let soup := stripTagsList ["script", "style", "noscript"] doc
  (match (findAllList ["title"] soup).head? with
   | some title =>
     if pyStrip (getText title) ≠ "" then ["TITLE: " ++ pyStrip (getText title)]
     else []
   | none => []) ++
  (List.range' 1 6).flatMap (fun i =>
    (findAllList ["h" ++ toString i] soup).filterMap (fun heading =>
      let text := pyStrip (getText heading)
      if text ≠ "" then some ("H" ++ toString i ++ ": " ++ text) else none)) ++
  (findAllList ["p"] soup).filterMap (fun p =>
    let text := pyStrip (getText p)
    if text ≠ "" ∧ 10 < text.length then some ("PARAGRAPH: " ++ text) else none) ++
  (findAllList ["ul", "ol"] soup).flatMap (fun lst =>
    (findAllIn ["li"] lst).filterMap (fun item =>
      let text := pyStrip (getText item)
      if text ≠ "" then some ("LIST ITEM: " ++ text) else none)) ++
  (findAllList ["a"] soup).filterMap (fun link =>
    let text := pyStrip (getText link)
    let href := getAttr link "href"
    if text ≠ "" ∧ 2 < text.length ∧ ¬ pyStartsWith text "http" then
      some ("LINK: " ++ text ++ " (" ++ href ++ ")")
    else none)

/-! Spec-side extraction components, written from the spec's words over
the document-order element list. -/

/-- Modelled from the spec: the Title unit (if any). -/
def specTitleUnits (doc : List Node) : List String :=
  match ((docElems doc).filter (tagIn ["title"])).head? with
  | some t =>
    if pyStrip (getText t) ≠ "" then ["TITLE: " ++ pyStrip (getText t)] else []
  | none => []

/-- Modelled from the spec: the Heading units of one level, in document
order within the level. -/
def specHeadingUnits (doc : List Node) (lvl : Nat) : List String :=
  ((docElems doc).filter (tagIn ["h" ++ toString lvl])).filterMap (fun h =>
    let text := pyStrip (getText h)
    if text ≠ "" then some ("H" ++ toString lvl ++ ": " ++ text) else none)

/-- Modelled from the spec: the Paragraph units in document order
(trimmed text longer than 10 characters). -/
def specParagraphUnits (doc : List Node) : List String :=
  ((docElems doc).filter (tagIn ["p"])).filterMap (fun p =>
    let text := pyStrip (getText p)
    if 10 < text.length then some ("PARAGRAPH: " ++ text) else none)

/-- The elements of a node's subtree (descendants), in document order. -/
def childElems (n : Node) : List Node :=
  match n with
  | .text _ => []
  | .elem _ _ ch => elemsList ch

/-- The ListItem units as the code produces them: for each ul/ol element
in document order, one unit per descendant li with nonempty trimmed
text. -/
def specListItemUnits (doc : List Node) : List String :=
  ((docElems doc).filter (tagIn ["ul", "ol"])).flatMap (fun lst =>
    ((childElems lst).filter (tagIn ["li"])).filterMap (fun item =>
      let text := pyStrip (getText item)
      if text ≠ "" then some ("LIST ITEM: " ++ text) else none))

/-- Modelled from the spec: one ListItem unit per li element of the
document, in document order — what the ordering contract of the spec
asserts. -/
def docOrderListItemUnits (doc : List Node) : List String :=
  ((docElems doc).filter (tagIn ["li"])).filterMap (fun item =>
    let text := pyStrip (getText item)
    if text ≠ "" then some ("LIST ITEM: " ++ text) else none)

/-- Modelled from the spec: a Link unit is emitted iff the trimmed text
is longer than 2 characters and does not start with the URL scheme
prefix `http`; it captures the display text and the raw href. -/
def linkUnitSpec (l : Node) : Option String :=
  let text := pyStrip (getText l)
  if 2 < text.length ∧ pyStartsWith text "http" = false then
    some ("LINK: " ++ text ++ " (" ++ getAttr l "href" ++ ")")
  else none

/-- Modelled from the spec: the Link units in document order. -/
def specLinkUnits (doc : List Node) : List String :=
  ((docElems doc).filter (tagIn ["a"])).filterMap linkUnitSpec

/-! ### _download_and_embed_css (source lines 153–168) -/

/-- Outcome of `session.get(url, timeout=10)`: a raised exception
(network error or timeout) or a response with status and body. -/
inductive FetchOutcome where
  | error
  | resp (status : Nat) (body : String)

/-- `rel='stylesheet'` matching (the `rel` attribute is multi-valued:
whitespace-separated tokens). -/
def relStylesheet (attrs : List (String × String)) : Bool :=
  match attrs.lookup "rel" with
  | some v => ((v.data.splitOn ' ').map String.mk).contains "stylesheet"
  | none => false

mutual
/-- `_download_and_embed_css` on one node: a `link` element with
`rel='stylesheet'` and a truthy `href` whose fetch returns status 200 is
replaced by a `style` element holding the body; on any other status, or
when the fetch raises, the element is left untouched (the exception is
caught by the per-link `except`). -/
def embedCssNode (fetch : String → FetchOutcome) (resolve : String → String) :
    Node → Node
  | .text s => .text s
  | .elem t attrs ch =>
    if t = "link" ∧ relStylesheet attrs then
      match attrs.lookup "href" with
      | some href =>
        if href ≠ "" then
          match fetch (resolve href) with
          | .resp status body =>
            if status = 200 then .elem "style" [] [.text body]
            else .elem t attrs (embedCssList fetch resolve ch)
          | .error => .elem t attrs (embedCssList fetch resolve ch)
        else .elem t attrs (embedCssList fetch resolve ch)
      | none => .elem t attrs (embedCssList fetch resolve ch)
    else .elem t attrs (embedCssList fetch resolve ch)
/-- `_download_and_embed_css` over a forest. -/
def embedCssList (fetch : String → FetchOutcome) (resolve : String → String) :
    List Node → List Node
  | [] => []
  | c :: cs => embedCssNode fetch resolve c :: embedCssList fetch resolve cs
end
/-- The nested-list document used as the C3 counterexample and the C10
witness example: `ul [li A, ul [li B], li C]`. -/
def nestedListDoc : List Node :=
  [.elem "ul" [] [.elem "li" [] [.text "A"],
    .elem "ul" [] [.elem "li" [] [.text "B"]],
    .elem "li" [] [.text "C"]]]

/-- A concrete page whose single stylesheet link gets HTTP 404. -/
def cssDoc : List Node :=
  [.elem "html" [] [
    .elem "head" [] [.elem "link" [("rel", "stylesheet"), ("href", "style.css")] []],
    .elem "body" [] [.elem "p" [] [.text "hello"]]]]

/-! ### Theorems -/

theorem lookup_mem {m : List (Nat × Nat)} {x v : Nat} (h : m.lookup x = some v) :
    (x, v) ∈ m := by
  induction m with
  | nil => simp [List.lookup] at h
  | cons p m ih =>
    rw [List.lookup] at h
    by_cases hx : x = p.1
    · simp [hx, beq_iff_eq] at h
      subst h hx
      exact List.mem_cons_self _ _
    · simp [beq_false_of_ne hx] at h
      exact List.mem_cons_of_mem _ (ih h)

theorem innerLoop_ok {alo ahi blo bhi i : Nat} (hi : alo ≤ i) (hia : i < ahi)
    {j2len : List (Nat × Nat)} (hrow : RowOK alo blo bhi i j2len) :
    ∀ js newm best, RowOK alo blo bhi (i + 1) newm → BestOK alo ahi blo bhi best →
      RowOK alo blo bhi (i + 1) (innerLoop i blo bhi j2len js newm best).1 ∧
      BestOK alo ahi blo bhi (innerLoop i blo bhi j2len js newm best).2 := by
  intro js
  induction js with
  | nil => intro newm best hn hb; exact ⟨hn, hb⟩
  | cons j js ih =>
    intro newm best hn hb
    by_cases h1 : j < blo
    · simpa [innerLoop, h1] using ih newm best hn hb
    · by_cases h2 : bhi ≤ j
      · simpa [innerLoop, h1, h2] using ⟨hn, hb⟩
      · have hbloj : blo ≤ j := Nat.le_of_not_lt h1
        have hjbhi : j < bhi := Nat.lt_of_not_le h2
        -- the computed run length k
        set k := (if j = 0 then 0 else j2lenGet j2len (j - 1)) + 1 with hk
        have hki : k + alo ≤ i + 1 := by
          by_cases hj0 : j = 0
          · simp [hk, hj0]; omega
          · rcases hv : j2len.lookup (j - 1) with _ | v
            · simp [hk, hj0, j2lenGet, hv]; omega
            · have := hrow _ (lookup_mem hv)
              simp [hk, hj0, j2lenGet, hv]; omega
        have hkj : k + blo ≤ j + 1 := by
          by_cases hj0 : j = 0
          · simp [hk, hj0]; omega
          · rcases hv : j2len.lookup (j - 1) with _ | v
            · simp [hk, hj0, j2lenGet, hv]; omega
            · have := hrow _ (lookup_mem hv)
              simp [hk, hj0, j2lenGet, hv]; omega
        have hrow' : RowOK alo blo bhi (i + 1) ((j, k) :: newm) := by
          intro p hp
          rcases List.mem_cons.1 hp with hp | hp
          · subst hp; exact ⟨hki, hbloj, hjbhi, hkj⟩
          · exact hn p hp
        have hbest' : BestOK alo ahi blo bhi
            (if best.2.2 < k then (i + 1 - k, j + 1 - k, k) else best) := by
          by_cases hlt : best.2.2 < k
          · refine ⟨?_, ?_, ?_, ?_⟩ <;> simp [hlt] <;> omega
          · simpa [hlt] using hb
        have := ih ((j, k) :: newm) _ hrow' hbest'
        simpa [innerLoop, h1, h2, hk] using this

theorem outerLoop_ok {a : List String} {b2j : String → List Nat}
    {alo ahi blo bhi : Nat} :
    ∀ n i j2len best, i + n ≤ ahi → alo ≤ i → RowOK alo blo bhi i j2len →
      BestOK alo ahi blo bhi best →
      BestOK alo ahi blo bhi (outerLoop a b2j blo bhi i n j2len best) := by
  intro n
  induction n with
  | zero => intro i j2len best _ _ _ hb; simpa [outerLoop] using hb
  | succ n ih =>
    intro i j2len best hn hi hrow hb
    have hia : i < ahi := by omega
    have h := innerLoop_ok hi hia hrow (b2j (a.getD i "")) [] best
      (by intro p hp; simp at hp) hb
    rw [outerLoop]
    exact ih (i + 1) _ _ (by omega) (by omega) h.1 h.2

theorem extendBackward_ok {a b : List String} {alo blo : Nat} :
    ∀ fuel bi bj bs, alo ≤ bi → blo ≤ bj →
      alo ≤ (extendBackward a b alo blo fuel bi bj bs).1 ∧
      blo ≤ (extendBackward a b alo blo fuel bi bj bs).2.1 ∧
      (extendBackward a b alo blo fuel bi bj bs).1 +
        (extendBackward a b alo blo fuel bi bj bs).2.2 = bi + bs ∧
      (extendBackward a b alo blo fuel bi bj bs).2.1 +
        (extendBackward a b alo blo fuel bi bj bs).2.2 = bj + bs ∧
      bs ≤ (extendBackward a b alo blo fuel bi bj bs).2.2 := by
  intro fuel
  induction fuel with
  | zero => intro bi bj bs h1 h2; simp [extendBackward]; omega
  | succ fuel ih =>
    intro bi bj bs h1 h2
    by_cases hc : alo < bi ∧ blo < bj ∧ a.getD (bi - 1) "" = b.getD (bj - 1) ""
    · have := ih (bi - 1) (bj - 1) (bs + 1) (by omega) (by omega)
      simp only [extendBackward, if_pos hc]
      omega
    · simp only [extendBackward, if_neg hc]
      exact ⟨h1, h2, by simp, by simp, by simp⟩

theorem extendForward_ok {a b : List String} {ahi bhi bi bj : Nat} :
    ∀ fuel bs,
      extendForward a b ahi bhi bi bj fuel bs = bs ∨
      (bs ≤ extendForward a b ahi bhi bi bj fuel bs ∧
        bi + extendForward a b ahi bhi bi bj fuel bs ≤ ahi ∧
        bj + extendForward a b ahi bhi bi bj fuel bs ≤ bhi) := by
  intro fuel
  induction fuel with
  | zero => intro bs; left; rfl
  | succ fuel ih =>
    intro bs
    by_cases hc : bi + bs < ahi ∧ bj + bs < bhi ∧
        a.getD (bi + bs) "" = b.getD (bj + bs) ""
    · simp only [extendForward, if_pos hc]
      rcases ih (bs + 1) with h | h
      · right; rw [h]; omega
      · right; omega
    · left; simp only [extendForward, if_neg hc]

/-- The bounds of the result of `find_longest_match`: a nonempty match
lies inside the rectangle `[alo, ahi) × [blo, bhi)`. -/
theorem findLongestMatch_bounds (a b : List String) (b2j : String → List Nat)
    (alo ahi blo bhi : Nat)
    (hk : (findLongestMatch a b b2j alo ahi blo bhi).2.2 ≠ 0) :
    alo ≤ (findLongestMatch a b b2j alo ahi blo bhi).1 ∧
    blo ≤ (findLongestMatch a b b2j alo ahi blo bhi).2.1 ∧
    (findLongestMatch a b b2j alo ahi blo bhi).1 +
      (findLongestMatch a b b2j alo ahi blo bhi).2.2 ≤ ahi ∧
    (findLongestMatch a b b2j alo ahi blo bhi).2.1 +
      (findLongestMatch a b b2j alo ahi blo bhi).2.2 ≤ bhi := by
  by_cases hrange : ahi < alo
  · -- empty iteration range: the loop never runs, the extensions never fire
    have hcount : ahi - alo = 0 := by omega
    have hm0 : outerLoop a b2j blo bhi alo (ahi - alo) [] (alo, blo, 0)
        = (alo, blo, 0) := by rw [hcount, outerLoop]
    have hback := @extendBackward_ok a b alo blo alo alo blo 0 le_rfl le_rfl
    -- from the preserved sums, the backward extension cannot move at all
    have hfwd := @extendForward_ok a b ahi bhi
      (extendBackward a b alo blo alo alo blo 0).1
      (extendBackward a b alo blo alo alo blo 0).2.1
      (ahi - ((extendBackward a b alo blo alo alo blo 0).1 +
        (extendBackward a b alo blo alo alo blo 0).2.2))
      (extendBackward a b alo blo alo alo blo 0).2.2
    simp only [findLongestMatch, hm0] at hk ⊢
    rcases hfwd with h | h
    · exfalso; rw [h] at hk; omega
    · omega
  · have halo : alo ≤ ahi := by omega
    have hm0 : BestOK alo ahi blo bhi
        (outerLoop a b2j blo bhi alo (ahi - alo) [] (alo, blo, 0)) := by
      apply outerLoop_ok (ahi - alo) alo [] _ (by omega) le_rfl
      · intro p hp; simp at hp
      · exact ⟨fun _ => ⟨rfl, rfl⟩, le_rfl, le_rfl, fun h => absurd rfl h⟩
    set m0 := outerLoop a b2j blo bhi alo (ahi - alo) [] (alo, blo, 0) with hm0d
    obtain ⟨hz, h1, h2, hnz⟩ := hm0
    have hback := @extendBackward_ok a b alo blo m0.1 m0.1 m0.2.1 m0.2.2 h1 h2
    set m1 := extendBackward a b alo blo m0.1 m0.1 m0.2.1 m0.2.2 with hm1d
    have hfwd := @extendForward_ok a b ahi bhi m1.1 m1.2.1
      (ahi - (m1.1 + m1.2.2)) m1.2.2
    simp only [findLongestMatch, ← hm0d, ← hm1d] at hk ⊢
    rcases hfwd with h | h
    · -- forward extension did not move: the result size is the backward one
      rw [h] at hk ⊢
      refine ⟨hback.1, hback.2.1, ?_, ?_⟩
      · -- m1 size nonzero, hence m0 size nonzero or backward extended
        by_cases h0 : m0.2.2 = 0
        · -- then m0 = (alo, blo, 0); the backward loop cannot fire
          obtain ⟨ha, hb'⟩ := hz h0
          have : m1 = (alo, blo, 0) := by
            rw [hm1d, ha, hb', h0]
            rcases hfuel : alo with _ | f
            · rfl
            · rw [extendBackward]
              simp

          rw [this] at hk; simp at hk
        · have := hnz h0; omega
      · by_cases h0 : m0.2.2 = 0
        · obtain ⟨ha, hb'⟩ := hz h0
          have : m1 = (alo, blo, 0) := by
            rw [hm1d, ha, hb', h0]
            rcases hfuel : alo with _ | f
            · rfl
            · rw [extendBackward]
              simp
          rw [this] at hk; simp at hk
        · have := hnz h0; omega
    · exact ⟨hback.1, hback.2.1, h.2.1, h.2.2⟩

theorem chain_weaken_start {ahi bhi x y x' y' : Nat} {l : List Best}
    (h : Chain ahi bhi x y l) (hx : x' ≤ x) (hy : y' ≤ y) :
    Chain ahi bhi x' y' l := by
  cases l with
  | nil => trivial
  | cons m rest =>
    obtain ⟨h1, h2, h3, h4, h5⟩ := h
    exact ⟨le_trans hx h1, le_trans hy h2, h3, h4, h5⟩

theorem chain_mono {ahi bhi A B : Nat} {l : List Best} (hA : ahi ≤ A) (hB : bhi ≤ B) :
    ∀ {x y : Nat}, Chain ahi bhi x y l → Chain A B x y l := by
  induction l with
  | nil => intro x y _; trivial
  | cons m rest ih =>
    intro x y h
    obtain ⟨h1, h2, h3, h4, h5⟩ := h
    exact ⟨h1, h2, le_trans h3 hA, le_trans h4 hB, ih h5⟩

theorem chain_append {ahi bhi A B : Nat} {l₂ : List Best}
    (hA : ahi ≤ A) (hB : bhi ≤ B) (h₂ : Chain A B ahi bhi l₂) :
    ∀ (l₁ : List Best) {x y : Nat}, Chain ahi bhi x y l₁ → x ≤ ahi → y ≤ bhi →
      Chain A B x y (l₁ ++ l₂) := by
  intro l₁
  induction l₁ with
  | nil =>
    intro x y _ hx hy
    exact chain_weaken_start h₂ hx hy
  | cons m rest ih =>
    intro x y h hx hy
    obtain ⟨h1, h2, h3, h4, h5⟩ := h
    exact ⟨h1, h2, le_trans h3 hA, le_trans h4 hB, ih h5 h3 h4⟩

theorem matchingBlocksAux_chain (a b : List String) (b2j : String → List Nat) :
    ∀ fuel alo ahi blo bhi,
      Chain ahi bhi alo blo (matchingBlocksAux a b b2j fuel alo ahi blo bhi) := by
  intro fuel
  induction fuel with
  | zero => intro alo ahi blo bhi; rw [matchingBlocksAux]; trivial
  | succ fuel ih =>
    intro alo ahi blo bhi
    rw [matchingBlocksAux]
    by_cases hk : (findLongestMatch a b b2j alo ahi blo bhi).2.2 = 0
    · rw [if_pos hk]; trivial
    · rw [if_neg hk]
      obtain ⟨hb1, hb2, hb3, hb4⟩ := findLongestMatch_bounds a b b2j alo ahi blo bhi hk
      set m := findLongestMatch a b b2j alo ahi blo bhi with hm
      have hmid : Chain ahi bhi m.1 m.2.1
          (m :: (if m.1 + m.2.2 < ahi ∧ m.2.1 + m.2.2 < bhi then
            matchingBlocksAux a b b2j fuel (m.1 + m.2.2) ahi (m.2.1 + m.2.2) bhi
          else [])) := by
        refine ⟨le_rfl, le_rfl, hb3, hb4, ?_⟩
        by_cases hg : m.1 + m.2.2 < ahi ∧ m.2.1 + m.2.2 < bhi
        · rw [if_pos hg]; exact ih (m.1 + m.2.2) ahi (m.2.1 + m.2.2) bhi
        · rw [if_neg hg]; trivial
      by_cases hg : alo < m.1 ∧ blo < m.2.1
      · rw [if_pos hg]
        exact chain_append (by omega) (by omega) hmid _
          (chain_mono le_rfl le_rfl (ih alo m.1 blo m.2.1)) hb1 hb2
      · rw [if_neg hg]
        simpa using chain_weaken_start hmid hb1 hb2

theorem mergeAdjacent_chain {ahi bhi : Nat} :
    ∀ (l : List Best) (i1 j1 k1 x y : Nat),
      Chain ahi bhi (i1 + k1) (j1 + k1) l → x ≤ i1 → y ≤ j1 →
      i1 + k1 ≤ ahi → j1 + k1 ≤ bhi →
      Chain ahi bhi x y (mergeAdjacent i1 j1 k1 l) := by
  intro l
  induction l with
  | nil =>
    intro i1 j1 k1 x y _ hx hy h1 h2
    rw [mergeAdjacent]
    by_cases hk : k1 ≠ 0
    · rw [if_pos hk]; exact ⟨hx, hy, h1, h2, trivial⟩
    · rw [if_neg hk]; trivial
  | cons m rest ih =>
    intro i1 j1 k1 x y h hx hy h1 h2
    obtain ⟨hc1, hc2, hc3, hc4, hc5⟩ := h
    rw [mergeAdjacent]
    by_cases hadj : i1 + k1 = m.1 ∧ j1 + k1 = m.2.1
    · rw [if_pos hadj]
      exact ih i1 j1 (k1 + m.2.2) x y
        (by rw [show i1 + (k1 + m.2.2) = m.1 + m.2.2 by omega,
                show j1 + (k1 + m.2.2) = m.2.1 + m.2.2 by omega]; exact hc5)
        hx hy (by omega) (by omega)
    · rw [if_neg hadj]
      have htail : Chain ahi bhi (i1 + k1) (j1 + k1) (mergeAdjacent m.1 m.2.1 m.2.2 rest) :=
        ih m.1 m.2.1 m.2.2 (i1 + k1) (j1 + k1) hc5 hc1 hc2 hc3 hc4
      by_cases hk : k1 ≠ 0
      · rw [if_pos hk]
        exact ⟨hx, hy, h1, h2, htail⟩
      · rw [if_neg hk]
        simp only [List.nil_append]
        exact chain_weaken_start htail (by omega) (by omega)

/-- The matching blocks of two sequences form a monotone chain from
`(0, 0)` bounded by the two lengths. -/
theorem getMatchingBlocks_chain (a b : List String) :
    Chain a.length b.length 0 0 (getMatchingBlocks a b) := by
  have haux := matchingBlocksAux_chain a b (b2jFun b)
    (a.length + b.length + 1) 0 a.length 0 b.length
  have hmerge : Chain a.length b.length 0 0
      (mergeAdjacent 0 0 0
        (matchingBlocksAux a b (b2jFun b) (a.length + b.length + 1) 0 a.length 0 b.length)) :=
    mergeAdjacent_chain _ 0 0 0 0 0 (by simpa using haux) le_rfl le_rfl
      (by omega) (by omega)
  have hsent : Chain a.length b.length a.length b.length
      [(a.length, b.length, 0)] :=
    ⟨le_rfl, le_rfl, by simp, by simp, trivial⟩
  exact chain_append le_rfl le_rfl hsent _ hmerge (by omega) (by omega)

theorem endPos_append_sentinel (la lb : Nat) :
    ∀ (l : List Best) (i j : Nat), endPos i j (l ++ [(la, lb, 0)]) = (la, lb) := by
  intro l
  induction l with
  | nil => intro i j; rfl
  | cons m rest ih => intro i j; rw [List.cons_append, endPos]; exact ih _ _

theorem getOpcodesAux_sums {ahi bhi : Nat} :
    ∀ (blocks : List Best) (i j : Nat), Chain ahi bhi i j blocks →
      opsSumOld (getOpcodesAux i j blocks) + i = (endPos i j blocks).1 ∧
      opsSumNew (getOpcodesAux i j blocks) + j = (endPos i j blocks).2 := by
  intro blocks
  induction blocks with
  | nil => intro i j _; simp [getOpcodesAux, endPos, opsSumOld, opsSumNew]
  | cons m rest ih =>
    intro i j h
    obtain ⟨h1, h2, h3, h4, h5⟩ := h
    have hrec := ih (m.1 + m.2.2) (m.2.1 + m.2.2) h5
    rw [getOpcodesAux, endPos]
    simp only [opsSumOld, opsSumNew, List.map_append, List.sum_append] at hrec ⊢
    constructor
    · split_ifs <;> simp <;> omega
    · split_ifs <;> simp <;> omega

/-- The opcodes of `get_opcodes` tile both sequences: the old-side spans
sum to `len a` and the new-side spans sum to `len b`. -/
theorem getOpcodes_sums (a b : List String) :
    opsSumOld (getOpcodes a b) = a.length ∧
    opsSumNew (getOpcodes a b) = b.length := by
  have hchain := getMatchingBlocks_chain a b
  have hsums := getOpcodesAux_sums (getMatchingBlocks a b) 0 0 hchain
  have hend : endPos 0 0 (getMatchingBlocks a b) = (a.length, b.length) :=
    endPos_append_sentinel a.length b.length _ 0 0
  rw [hend] at hsums
  simpa [getOpcodes] using hsums

/-- The opcode fold of `analyze_changes` computes exactly the spec-side
sums on the counting fields and leaves the other fields unchanged. -/
theorem foldl_applyOp_eq (ops : List Op) : ∀ (c : Changes),
    ops.foldl applyOp c =
      { c with added := c.added + specAdded ops,
               removed := c.removed + specRemoved ops,
               modified := c.modified + specModified ops,
               unchanged := c.unchanged + specUnchanged ops,
               total_changes := c.total_changes + specTotalChanges ops } := by
  induction ops with
  | nil =>
    intro c
    simp [specAdded, specRemoved, specModified, specUnchanged, specTotalChanges]
  | cons o rest ih =>
    intro c
    rw [List.foldl_cons, ih (applyOp c o)]
    cases htag : o.tag <;>
      simp [applyOp, htag, specAdded, specRemoved, specModified, specUnchanged,
        specTotalChanges, Changes.mk.injEq] <;> omega

theorem specTotalChanges_le (ops : List Op) :
    specTotalChanges ops ≤ opsSumOld ops + opsSumNew ops := by
  induction ops with
  | nil => simp [specTotalChanges, opsSumOld, opsSumNew]
  | cons o rest ih =>
    cases htag : o.tag <;>
      simp [specTotalChanges, opsSumOld, opsSumNew, htag] at ih ⊢ <;> omega

/-- The fields of `analyze_changes` in terms of the spec-side sums over
the opcode list. -/
theorem analyze_changes_fields (old new : List String) :
    (analyze_changes old new).modified = specModified (getOpcodes old new) ∧
    (analyze_changes old new).removed = specRemoved (getOpcodes old new) ∧
    (analyze_changes old new).added = specAdded (getOpcodes old new) ∧
    (analyze_changes old new).unchanged = specUnchanged (getOpcodes old new) ∧
    (analyze_changes old new).total_changes = specTotalChanges (getOpcodes old new) ∧
    (analyze_changes old new).change_percentage =
      (if old.length + new.length = 0 then 0
       else (specTotalChanges (getOpcodes old new) : ℚ) /
         ((old.length : ℚ) + (new.length : ℚ)) * 100) := by
  have h := foldl_applyOp_eq (getOpcodes old new)
    { added := 0, removed := 0, modified := 0, unchanged := 0, total_changes := 0,
      change_percentage := 0, old_total := 0, new_total := 0, net_change := 0 }
  refine ⟨?_, ?_, ?_, ?_, ?_, ?_⟩ <;>
    simp only [analyze_changes, h]
  · exact Nat.zero_add _
  · exact Nat.zero_add _
  · exact Nat.zero_add _
  · exact Nat.zero_add _
  · exact Nat.zero_add _
  · by_cases h0 : old.length + new.length = 0
    · simp [h0]
    · have hpos : 0 < old.length + new.length := Nat.pos_of_ne_zero h0
      simp only [hpos, if_true, h0, if_false]
      push_cast
      ring

/-- **C1.** For every pair of unit sequences, the change statistics are
derived from the opcode list exactly as the spec states: Replace runs add
`max` of the two span lengths to `modified` and `total_changes`, Delete
runs their old-span length to `removed` and `total_changes`, Insert runs
their new-span length to `added` and `total_changes`, Equal runs their
length to `unchanged`, and `change_percentage` is
`total_changes / (len old + len new) * 100`, or `0` when the denominator
is zero. -/
theorem analyze_changes_stats_from_opcodes (old new : List String) :
    (analyze_changes old new).modified = specModified (getOpcodes old new) ∧
    (analyze_changes old new).removed = specRemoved (getOpcodes old new) ∧
    (analyze_changes old new).added = specAdded (getOpcodes old new) ∧
    (analyze_changes old new).unchanged = specUnchanged (getOpcodes old new) ∧
    (analyze_changes old new).total_changes = specTotalChanges (getOpcodes old new) ∧
    (analyze_changes old new).change_percentage =
      (if old.length + new.length = 0 then 0
       else (specTotalChanges (getOpcodes old new) : ℚ) /
         ((old.length : ℚ) + (new.length : ℚ)) * 100) :=
  analyze_changes_fields old new

/-- **C8.** On every path out of the change analysis — the normal path
and the internal-error fallback of lines 347–357 — `old_total` is the
old sequence's length, `new_total` the new sequence's length, and
`net_change = new_total - old_total`. -/
theorem analyze_changes_totals (old new : List String) :
    (analyze_changes old new).old_total = old.length ∧
    (analyze_changes old new).new_total = new.length ∧
    (analyze_changes old new).net_change =
      ((analyze_changes old new).new_total : Int) -
        ((analyze_changes old new).old_total : Int) ∧
    (analyzeChangesFallback old new).old_total = old.length ∧
    (analyzeChangesFallback old new).new_total = new.length ∧
    (analyzeChangesFallback old new).net_change =
      ((analyzeChangesFallback old new).new_total : Int) -
        ((analyzeChangesFallback old new).old_total : Int) :=
  ⟨rfl, rfl, rfl, rfl, rfl, rfl⟩

/-- **C9.** For every pair of input sequences, `change_percentage` lies
between 0 and 100 (with exact rational arithmetic): every opcode
contributes at most its combined span length to `total_changes`, and the
spans tile the two sequences, so `total_changes ≤ len old + len new`. -/
theorem change_percentage_bounds (old new : List String) :
    0 ≤ (analyze_changes old new).change_percentage ∧
    (analyze_changes old new).change_percentage ≤ 100 ∧
    (analyze_changes old new).total_changes ≤ old.length + new.length := by
  have hspec := analyze_changes_fields old new
  have hle := specTotalChanges_le (getOpcodes old new)
  have hsums := getOpcodes_sums old new
  have htc : (analyze_changes old new).total_changes ≤ old.length + new.length := by
    rw [hspec.2.2.2.2.1]
    omega
  refine ⟨?_, ?_, htc⟩
  · rw [hspec.2.2.2.2.2]
    by_cases h0 : old.length + new.length = 0
    · simp [h0]
    · simp only [h0, if_false]
      positivity
  · rw [hspec.2.2.2.2.2]
    by_cases h0 : old.length + new.length = 0
    · simp [h0]
    · simp only [h0, if_false]
      have hden : (0 : ℚ) < (old.length : ℚ) + (new.length : ℚ) := by
        have : 0 < old.length + new.length := Nat.pos_of_ne_zero h0
        exact_mod_cast this
      have hnum : (specTotalChanges (getOpcodes old new) : ℚ) ≤
          (old.length : ℚ) + (new.length : ℚ) := by
        exact_mod_cast by omega
      have h1 : (specTotalChanges (getOpcodes old new) : ℚ) /
          ((old.length : ℚ) + (new.length : ℚ)) ≤ 1 :=
        (div_le_one hden).mpr hnum
      linarith

theorem diagRun_pos {a : List String} {b2j : String → List Nat} {i : Nat}
    (h : i ∈ b2j (a.getD i "")) : 1 ≤ diagRun a b2j i := by
  cases i <;> (simp only [diagRun]; rw [if_pos h]) <;> omega

theorem diagRun_eq_zero {a : List String} {b2j : String → List Nat} {i : Nat}
    (h : i ∉ b2j (a.getD i "")) : diagRun a b2j i = 0 := by
  cases i <;> (simp only [diagRun]; rw [if_neg h])

theorem diagRun_succ {a : List String} {b2j : String → List Nat} {j : Nat}
    (h : (j + 1) ∈ b2j (a.getD (j + 1) "")) :
    diagRun a b2j (j + 1) = diagRun a b2j j + 1 := by
  simp only [diagRun]; rw [if_pos h]

theorem j2lenGet_cons_self (m : List (Nat × Nat)) (j k : Nat) :
    j2lenGet ((j, k) :: m) j = k := by
  simp [j2lenGet, List.lookup]

theorem j2lenGet_cons_ne (m : List (Nat × Nat)) {x j : Nat} (k : Nat) (h : x ≠ j) :
    j2lenGet ((j, k) :: m) x = j2lenGet m x := by
  simp [j2lenGet, List.lookup, beq_false_of_ne h]

theorem j2lenGet_eq_zero_of_keys {m : List (Nat × Nat)} {x : Nat}
    (h : ∀ p ∈ m, p.1 ≠ x) : j2lenGet m x = 0 := by
  induction m with
  | nil => rfl
  | cons p m ih =>
    have hne : x ≠ p.1 := fun hx => h p (List.mem_cons_self _ _) hx.symm
    rw [show (p :: m) = ((p.1, p.2) :: m) by rfl, j2lenGet_cons_ne m p.2 hne]
    exact ih fun q hq => h q (List.mem_cons_of_mem _ hq)

theorem j2lenGet_le {m : List (Nat × Nat)} {x c : Nat}
    (h : ∀ p ∈ m, p.2 ≤ c) : j2lenGet m x ≤ c := by
  rcases hv : m.lookup x with _ | v
  · simp [j2lenGet, hv]
  · simpa [j2lenGet, hv] using h _ (lookup_mem hv)

theorem j2lenGet_le_diag {a : List String} {b2j : String → List Nat}
    {m : List (Nat × Nat)} (hm : ∀ p ∈ m, p.2 ≤ diagRun a b2j p.1) (x : Nat) :
    j2lenGet m x ≤ diagRun a b2j x := by
  rcases hv : m.lookup x with _ | v
  · simp [j2lenGet, hv]
  · simpa [j2lenGet, hv] using hm _ (lookup_mem hv)

/-- Main-loop invariant for a self-comparison: the best match stays on
the diagonal, its size dominates every completed diagonal run, and each
`j2len` entry is bounded by the diagonal runs of its column and of the
current row. -/
theorem innerLoop_diag {a : List String} {b2j : String → List Nat}
    (hval : ∀ x j, j ∈ b2j x → a.getD j "" = x)
    (hlt : ∀ x j, j ∈ b2j x → j < a.length)
    (hsat : ∀ x j j', j ∈ b2j x → j' < a.length → a.getD j' "" = x → j' ∈ b2j x)
    {i : Nat} (hi : i < a.length)
    {j2len : List (Nat × Nat)}
    (hprevD : ∀ p ∈ j2len, p.2 ≤ diagRun a b2j p.1)
    {dprev : Nat}
    (hdprev1 : ∀ p ∈ j2len, p.2 ≤ dprev)
    (hdprev2 : i ∈ b2j (a.getD i "") → dprev + 1 ≤ diagRun a b2j i)
    (hdk : i ∈ b2j (a.getD i "") →
      (if i = 0 then 0 else j2lenGet j2len (i - 1)) + 1 = diagRun a b2j i) :
    ∀ js newm best,
      (∀ j ∈ js, j ∈ b2j (a.getD i "")) →
      js.Pairwise (· < ·) →
      (∀ p ∈ newm, p.2 ≤ diagRun a b2j p.1 ∧ p.2 ≤ diagRun a b2j i ∧
        p.1 ∈ b2j (a.getD i "")) →
      best.1 = best.2.1 →
      (∀ j' < i, diagRun a b2j j' ≤ best.2.2) →
      (i ∈ b2j (a.getD i "") → i ∈ js ∨
        (j2lenGet newm i = diagRun a b2j i ∧ diagRun a b2j i ≤ best.2.2)) →
      (∀ p ∈ (innerLoop i 0 a.length j2len js newm best).1,
        p.2 ≤ diagRun a b2j p.1 ∧ p.2 ≤ diagRun a b2j i ∧
        p.1 ∈ b2j (a.getD i "")) ∧
      (innerLoop i 0 a.length j2len js newm best).2.1 =
        (innerLoop i 0 a.length j2len js newm best).2.2.1 ∧
      (∀ j' < i + 1, diagRun a b2j j' ≤
        (innerLoop i 0 a.length j2len js newm best).2.2.2) ∧
      (i ∈ b2j (a.getD i "") →
        j2lenGet (innerLoop i 0 a.length j2len js newm best).1 i
          = diagRun a b2j i) := by
  intro js
  induction js with
  | nil =>
    intro newm best _ _ hnew hbd hbs hdone
    rw [innerLoop]
    refine ⟨hnew, hbd, ?_, ?_⟩
    · intro j' hj'
      rcases Nat.lt_succ_iff_lt_or_eq.1 hj' with h | h
      · exact hbs _ h
      · subst h
        by_cases hp : j' ∈ b2j (a.getD j' "")
        · rcases hdone hp with hin | hdn
          · simp at hin
          · exact hdn.2
        · rw [diagRun_eq_zero hp]; omega
    · intro hp
      rcases hdone hp with hin | hdn
      · simp at hin
      · exact hdn.1
  | cons j js ih =>
    intro newm best hmem hsorted hnew hbd hbs hdone
    have hjmem : j ∈ b2j (a.getD i "") := hmem j (List.mem_cons_self _ _)
    have hjlt : j < a.length := hlt _ _ hjmem
    have hpresi : i ∈ b2j (a.getD i "") := hsat _ _ _ hjmem hi rfl
    have hpresj : j ∈ b2j (a.getD j "") := by
      rw [hval _ _ hjmem]; exact hjmem
    have hmem' : ∀ j' ∈ js, j' ∈ b2j (a.getD i "") :=
      fun j' hj' => hmem j' (List.mem_cons_of_mem _ hj')
    have hsorted' : js.Pairwise (· < ·) := hsorted.of_cons
    have hhead : ∀ y ∈ js, j < y := (List.pairwise_cons.1 hsorted).1
    rw [innerLoop, if_neg (Nat.not_lt_zero j), if_neg (not_le.mpr hjlt)]
    simp only []
    set k := (if j = 0 then 0 else j2lenGet j2len (j - 1)) + 1 with hkdef
    have hkj : k ≤ diagRun a b2j j := by
      rcases j with _ | j'
      · rw [hkdef]; simpa using diagRun_pos hpresj
      · rw [hkdef, if_neg (Nat.succ_ne_zero j'), diagRun_succ hpresj]
        have := j2lenGet_le_diag hprevD (j' + 1 - 1)
        simpa using this
    have hki : k ≤ diagRun a b2j i := by
      rcases j with _ | j'
      · rw [hkdef]; simpa using diagRun_pos hpresi
      · rw [hkdef, if_neg (Nat.succ_ne_zero j')]
        have h1 := @j2lenGet_le j2len (j' + 1 - 1) dprev hdprev1
        have h2 := hdprev2 hpresi
        omega
    have hkdiag : j = i → k = diagRun a b2j i := by
      intro hji
      rw [hkdef, hji]
      exact hdk hpresi
    rcases Nat.lt_trichotomy j i with hji | hji | hji
    · -- column strictly left of the diagonal: cannot beat the best
      have hnoup : ¬ best.2.2 < k := by
        have := hbs j hji; omega
      rw [if_neg hnoup]
      refine ih ((j, k) :: newm) best hmem' hsorted' ?_ hbd hbs ?_
      · intro p hp
        rcases List.mem_cons.1 hp with hp | hp
        · subst hp; exact ⟨hkj, hki, hjmem⟩
        · exact hnew p hp
      · intro hp
        rcases hdone hp with hin | hdn
        · rcases List.mem_cons.1 hin with h | h
          · omega
          · exact Or.inl h
        · refine Or.inr ⟨?_, hdn.2⟩
          rw [j2lenGet_cons_ne _ _ (by omega)]
          exact hdn.1
    · -- the diagonal column itself
      subst hji
      have hkD : k = diagRun a b2j j := hkdiag rfl
      by_cases hup : best.2.2 < k
      · rw [if_pos hup]
        refine ih ((j, k) :: newm) _ hmem' hsorted' ?_ rfl ?_ ?_
        · intro p hp
          rcases List.mem_cons.1 hp with hp | hp
          · subst hp; exact ⟨hkj, hki, hjmem⟩
          · exact hnew p hp
        · intro j' hj'
          have := hbs j' hj'
          simp only []
          omega
        · intro _
          refine Or.inr ⟨?_, ?_⟩
          · rw [j2lenGet_cons_self]; exact hkD
          · simp only []
            omega
      · rw [if_neg hup]
        refine ih ((j, k) :: newm) best hmem' hsorted' ?_ hbd hbs ?_
        · intro p hp
          rcases List.mem_cons.1 hp with hp | hp
          · subst hp; exact ⟨hkj, hki, hjmem⟩
          · exact hnew p hp
        · intro _
          refine Or.inr ⟨?_, ?_⟩
          · rw [j2lenGet_cons_self]; exact hkD
          · omega
    · -- column strictly right of the diagonal: the diagonal has already
      -- been recorded, so this run cannot beat the best either
      have hdn : j2lenGet newm i = diagRun a b2j i ∧
          diagRun a b2j i ≤ best.2.2 := by
        rcases hdone hpresi with hin | hdn
        · rcases List.mem_cons.1 hin with h | h
          · omega
          · exact absurd (hhead i h) (by omega)
        · exact hdn
      have hnoup : ¬ best.2.2 < k := by omega
      rw [if_neg hnoup]
      refine ih ((j, k) :: newm) best hmem' hsorted' ?_ hbd hbs ?_
      · intro p hp
        rcases List.mem_cons.1 hp with hp | hp
        · subst hp; exact ⟨hkj, hki, hjmem⟩
        · exact hnew p hp
      · intro _
        refine Or.inr ⟨?_, hdn.2⟩
        rw [j2lenGet_cons_ne _ _ (by omega)]
        exact hdn.1

/-- For a self-comparison the outer loop returns a diagonal best match. -/
theorem outerLoop_diag {a : List String} {b2j : String → List Nat}
    (hsort : ∀ x, (b2j x).Pairwise (· < ·))
    (hval : ∀ x j, j ∈ b2j x → a.getD j "" = x)
    (hlt : ∀ x j, j ∈ b2j x → j < a.length)
    (hsat : ∀ x j j', j ∈ b2j x → j' < a.length → a.getD j' "" = x → j' ∈ b2j x) :
    ∀ cnt i j2len best,
      i + cnt = a.length →
      (∀ p ∈ j2len, p.2 ≤ diagRun a b2j p.1) →
      (∀ p ∈ j2len, p.2 ≤ (if i = 0 then 0 else diagRun a b2j (i - 1))) →
      (∀ p ∈ j2len, 0 < i → p.1 ∈ b2j (a.getD (i - 1) "")) →
      (0 < i → (i - 1) ∈ b2j (a.getD (i - 1) "") →
        j2lenGet j2len (i - 1) = diagRun a b2j (i - 1)) →
      best.1 = best.2.1 →
      (∀ j' < i, diagRun a b2j j' ≤ best.2.2) →
      (outerLoop a b2j 0 a.length i cnt j2len best).1 =
        (outerLoop a b2j 0 a.length i cnt j2len best).2.1 := by
  intro cnt
  induction cnt with
  | zero => intro i j2len best _ _ _ _ _ hbd _; rw [outerLoop]; exact hbd
  | succ cnt ih =>
    intro i j2len best hn hrowD hrowP hrowK hrowGet hbd hbs
    have hi : i < a.length := by omega
    have hdprev2 : i ∈ b2j (a.getD i "") →
        (if i = 0 then 0 else diagRun a b2j (i - 1)) + 1 ≤ diagRun a b2j i := by
      intro hp
      rcases i with _ | i'
      · simpa using diagRun_pos hp
      · simp only [Nat.succ_ne_zero, if_false, Nat.add_sub_cancel]
        rw [diagRun_succ hp]
    have hdk : i ∈ b2j (a.getD i "") →
        (if i = 0 then 0 else j2lenGet j2len (i - 1)) + 1 = diagRun a b2j i := by
      intro hp
      rcases i with _ | i'
      · simp only [if_pos rfl, diagRun]
        rw [if_pos hp]
        simp
      · simp only [Nat.succ_ne_zero, if_false, Nat.add_sub_cancel] at *
        by_cases hp' : i' ∈ b2j (a.getD i' "")
        · rw [hrowGet (Nat.succ_pos i') hp', diagRun_succ hp]
        · have hnokey : ∀ p ∈ j2len, p.1 ≠ i' := by
            intro p hpm hpe
            have := hrowK p hpm (Nat.succ_pos i')
            rw [hpe] at this
            exact hp' this
          rw [j2lenGet_eq_zero_of_keys hnokey, diagRun_succ hp,
            diagRun_eq_zero hp']
    have h := innerLoop_diag hval hlt hsat hi hrowD hrowP hdprev2 hdk
      (b2j (a.getD i "")) [] best (fun _ hj => hj) (hsort _)
      (by intro p hp; simp at hp) hbd hbs (fun hp => Or.inl hp)
    simp only [outerLoop]
    refine ih (i + 1) _ _ (by omega) ?_ ?_ ?_ ?_ h.2.1 h.2.2.1
    · intro p hp; exact (h.1 p hp).1
    · intro p hp
      simp only [Nat.succ_ne_zero, if_false, Nat.add_sub_cancel]
      exact (h.1 p hp).2.1
    · intro p hp _
      simp only [Nat.add_sub_cancel]
      exact (h.1 p hp).2.2
    · intro _ hp
      simp only [Nat.add_sub_cancel] at hp ⊢
      exact h.2.2.2 hp

/-- On a self-comparison the backward extension drags a diagonal match
to the very beginning. -/
theorem extendBackward_self (a : List String) :
    ∀ t s, extendBackward a a 0 0 t t t s = (0, 0, s + t) := by
  intro t
  induction t with
  | zero => intro s; rw [extendBackward]; simp
  | succ t ih =>
    intro s
    rw [extendBackward, if_pos ⟨Nat.succ_pos t, Nat.succ_pos t, rfl⟩]
    simp only [Nat.add_sub_cancel]
    rw [ih (s + 1)]
    simp [Nat.add_comm, Nat.add_assoc, Nat.add_left_comm]

/-- On a self-comparison the forward extension stretches a match that
starts at the beginning over the whole sequence. -/
theorem extendForward_self (a : List String) (n : Nat) :
    ∀ fuel s, fuel = n - s → s ≤ n → extendForward a a n n 0 0 fuel s = n := by
  intro fuel
  induction fuel with
  | zero =>
    intro s h hs
    rw [extendForward]
    omega
  | succ fuel ih =>
    intro s h hs
    rw [extendForward, if_pos ⟨by omega, by omega, rfl⟩]
    exact ih (s + 1) (by omega) (by omega)

/-- `find_longest_match` over the full rectangle of a self-comparison
returns the whole sequence, for every position table `b2j` that lists
exact occurrence positions (in particular the autojunk-filtered one). -/
theorem findLongestMatch_self {a : List String} {b2j : String → List Nat}
    (hsort : ∀ x, (b2j x).Pairwise (· < ·))
    (hval : ∀ x j, j ∈ b2j x → a.getD j "" = x)
    (hlt : ∀ x j, j ∈ b2j x → j < a.length)
    (hsat : ∀ x j j', j ∈ b2j x → j' < a.length → a.getD j' "" = x → j' ∈ b2j x) :
    findLongestMatch a a b2j 0 a.length 0 a.length = (0, 0, a.length) := by
  have hdiag :
      (outerLoop a b2j 0 a.length 0 (a.length - 0) [] (0, 0, 0)).1 =
        (outerLoop a b2j 0 a.length 0 (a.length - 0) [] (0, 0, 0)).2.1 := by
    refine outerLoop_diag hsort hval hlt hsat (a.length - 0) 0 [] (0, 0, 0)
      (by omega) ?_ ?_ ?_ ?_ rfl ?_
    · intro p hp; simp at hp
    · intro p hp; simp at hp
    · intro p hp; simp at hp
    · intro h0; omega
    · intro j' hj'; omega
  have hok : BestOK 0 a.length 0 a.length
      (outerLoop a b2j 0 a.length 0 (a.length - 0) [] (0, 0, 0)) := by
    refine outerLoop_ok (a.length - 0) 0 [] (0, 0, 0) (by omega) le_rfl ?_ ?_
    · intro p hp; simp at hp
    · exact ⟨fun _ => ⟨rfl, rfl⟩, le_rfl, le_rfl, fun h => absurd rfl h⟩
  set m0 := outerLoop a b2j 0 a.length 0 (a.length - 0) [] (0, 0, 0) with hm0
  obtain ⟨hz, _, _, hnz⟩ := hok
  have hsum : m0.1 + m0.2.2 ≤ a.length := by
    by_cases h0 : m0.2.2 = 0
    · have := hz h0; omega
    · exact (hnz h0).1
  have hback : extendBackward a a 0 0 m0.1 m0.1 m0.2.1 m0.2.2
      = (0, 0, m0.2.2 + m0.1) := by
    rw [← hdiag]
    exact extendBackward_self a m0.1 m0.2.2
  have hfwd : extendForward a a a.length a.length 0 0
      (a.length - (0 + (m0.2.2 + m0.1))) (m0.2.2 + m0.1) = a.length :=
    extendForward_self a a.length _ _ (by omega) (by omega)
  simp only [findLongestMatch, ← hm0, hback]
  simpa using hfwd

theorem b2jFun_sorted (b : List String) (x : String) :
    (b2jFun b x).Pairwise (· < ·) := by
  rw [b2jFun]
  split
  · exact List.Pairwise.nil
  · exact (List.pairwise_lt_range _).filter _

theorem b2jFun_val (b : List String) (x : String) (j : Nat)
    (h : j ∈ b2jFun b x) : b.getD j "" = x := by
  rw [b2jFun] at h
  split at h
  · simp at h
  · simpa using (List.mem_filter.1 h).2

theorem b2jFun_lt (b : List String) (x : String) (j : Nat)
    (h : j ∈ b2jFun b x) : j < b.length := by
  rw [b2jFun] at h
  split at h
  · simp at h
  · exact List.mem_range.1 (List.mem_filter.1 h).1

theorem b2jFun_sat (b : List String) (x : String) (j j' : Nat)
    (h : j ∈ b2jFun b x) (hj' : j' < b.length) (hv : b.getD j' "" = x) :
    j' ∈ b2jFun b x := by
  rw [b2jFun] at h ⊢
  split at h
  · simp at h
  · next hc =>
    rw [if_neg hc]
    exact List.mem_filter.2 ⟨List.mem_range.2 hj', by simpa using hv⟩

/-- Diffing a nonempty sequence against itself yields exactly one Equal
opcode spanning the whole sequence. -/
theorem getOpcodes_self (s : List String) (hs : s ≠ []) :
    getOpcodes s s = [⟨.equal, 0, s.length, 0, s.length⟩] := by
  have hn : 0 < s.length := List.length_pos.2 hs
  have hflm : findLongestMatch s s (b2jFun s) 0 s.length 0 s.length
      = (0, 0, s.length) :=
    findLongestMatch_self (b2jFun_sorted s) (b2jFun_val s) (b2jFun_lt s)
      (b2jFun_sat s)
  have hblocks : matchingBlocksAux s s (b2jFun s)
      (s.length + s.length + 1) 0 s.length 0 s.length = [(0, 0, s.length)] := by
    rw [matchingBlocksAux, hflm]
    simp [hn.ne']
  have hgmb : getMatchingBlocks s s
      = [(0, 0, s.length), (s.length, s.length, 0)] := by
    rw [getMatchingBlocks, hblocks, mergeAdjacent, if_pos ⟨rfl, rfl⟩,
      mergeAdjacent, if_pos (show (0 + s.length ≠ 0) by omega)]
    simp
  rw [getOpcodes, hgmb]
  simp [getOpcodesAux, hn.ne']

/-- **C4** (amended to nonempty sequences).  Diffing a nonempty sequence
against itself yields a single Equal run spanning the whole sequence,
with `added = removed = modified = total_changes = 0`,
`change_percentage = 0` and `unchanged = old_total = new_total` equal to
the sequence's length.  (For the empty sequence the edit script is empty
rather than a single Equal run; the statistics are the same with length
zero.) -/
theorem diff_self (s : List String) (hs : s ≠ []) :
    getOpcodes s s = [⟨.equal, 0, s.length, 0, s.length⟩] ∧
    analyze_changes s s =
      { added := 0, removed := 0, modified := 0, unchanged := s.length,
        total_changes := 0, change_percentage := 0, old_total := s.length,
        new_total := s.length, net_change := 0 } := by
  have hops := getOpcodes_self s hs
  refine ⟨hops, ?_⟩
  have h := foldl_applyOp_eq (getOpcodes s s)
    { added := 0, removed := 0, modified := 0, unchanged := 0, total_changes := 0,
      change_percentage := 0, old_total := 0, new_total := 0, net_change := 0 }
  rw [hops] at h
  simp only [analyze_changes, hops, h]
  simp [specAdded, specRemoved, specModified, specUnchanged, specTotalChanges,
    Changes.mk.injEq]

/-- **C4 counterexample.**  For the empty sequence, diffing it against
itself yields an empty opcode list — not a single Equal run spanning the
(empty) sequence. -/
theorem diff_self_empty_counterexample :
    getOpcodes ([] : List String) ([] : List String) = [] ∧
    getOpcodes ([] : List String) ([] : List String) ≠ [⟨.equal, 0, 0, 0, 0⟩] := by
  decide

theorem diff_self_witness :
    getOpcodes ["a"] ["a"] = [⟨.equal, 0, 1, 0, 1⟩] ∧
    analyze_changes ["a"] ["a"] =
      { added := 0, removed := 0, modified := 0, unchanged := 1,
        total_changes := 0, change_percentage := 0, old_total := 1,
        new_total := 1, net_change := 0 } :=
  diff_self ["a"] (by decide)

theorem lexLt_irrefl : ∀ l, lexLt l l = false := by
  intro l
  induction l with
  | nil => rfl
  | cons a as ih => simp [lexLt, ih]

theorem lexLt_asymm : ∀ l1 l2, lexLt l1 l2 = true → lexLt l2 l1 = false := by
  intro l1
  induction l1 with
  | nil =>
    intro l2 h
    cases l2 with
    | nil => simpa [lexLt] using h
    | cons b bs => rfl
  | cons a as ih =>
    intro l2 h
    cases l2 with
    | nil => simp [lexLt] at h
    | cons b bs =>
      by_cases hab : a < b
      · have hba : ¬ b < a := lt_asymm hab
        have hne : b ≠ a := ne_of_gt hab
        simp [lexLt, hba, hne]
      · by_cases heq : a = b
        · subst heq
          simp only [lexLt, if_neg hab, if_pos rfl] at h
          simp [lexLt, hab, ih bs h]
        · simp [lexLt, hab, heq] at h

theorem lexLt_conn : ∀ l1 l2, lexLt l1 l2 = false → lexLt l2 l1 = false → l1 = l2 := by
  intro l1
  induction l1 with
  | nil =>
    intro l2 h1 _
    cases l2 with
    | nil => rfl
    | cons b bs => simp [lexLt] at h1
  | cons a as ih =>
    intro l2 h1 h2
    cases l2 with
    | nil => simp [lexLt] at h2
    | cons b bs =>
      by_cases hab : a < b
      · simp [lexLt, hab] at h1
      · by_cases hba : b < a
        · simp [lexLt, hba, ne_of_gt hba] at h2
        · have heq : a = b := le_antisymm (not_lt.1 hba) (not_lt.1 hab)
          subst heq
          simp only [lexLt, if_neg hab, if_pos rfl] at h1 h2
          rw [ih bs h1 h2]

theorem lexLt_trans : ∀ l1 l2 l3, lexLt l1 l2 = true → lexLt l2 l3 = true →
    lexLt l1 l3 = true := by
  intro l1
  induction l1 with
  | nil =>
    intro l2 l3 h1 h2
    cases l3 with
    | nil =>
      cases l2 with
      | nil => simpa [lexLt] using h1
      | cons b bs => simp [lexLt] at h2
    | cons c cs => rfl
  | cons a as ih =>
    intro l2 l3 h1 h2
    cases l2 with
    | nil => simp [lexLt] at h1
    | cons b bs =>
      cases l3 with
      | nil => simp [lexLt] at h2
      | cons c cs =>
        by_cases hab : a < b
        · by_cases hbc : b < c
          · simp [lexLt, lt_trans hab hbc]
          · by_cases hbceq : b = c
            · subst hbceq; simp [lexLt, hab]
            · simp [lexLt, hbc, hbceq] at h2
        · by_cases habeq : a = b
          · subst habeq
            simp only [lexLt, if_neg hab, if_pos rfl] at h1
            by_cases hbc : a < c
            · simp [lexLt, hbc]
            · by_cases hbceq : a = c
              · subst hbceq
                simp only [lexLt, if_neg hbc, if_pos rfl] at h2 ⊢
                exact ih bs cs h1 h2
              · simp [lexLt, hbc, hbceq] at h2
          · simp [lexLt, hab, habeq] at h1

theorem strLtB_irrefl (x : String) : strLtB x x = false := lexLt_irrefl _

theorem strLtB_conn {x y : String} (h1 : strLtB x y = false)
    (h2 : strLtB y x = false) : x = y := by
  have hd := lexLt_conn x.data y.data h1 h2
  cases x with
  | mk dx =>
    cases y with
    | mk dy => exact congrArg String.mk hd

theorem strLtB_ge_trans {x y z : String} (h1 : strLtB x y = false)
    (h2 : strLtB y z = false) : strLtB x z = false := by
  cases hxz : strLtB x z
  · rfl
  · exfalso
    cases hyx : strLtB y x
    · have := strLtB_conn h1 hyx
      subst this
      rw [hxz] at h2
      exact Bool.noConfusion h2
    · have := lexLt_trans y.data x.data z.data hyx hxz
      rw [show lexLt y.data z.data = strLtB y z from rfl, h2] at this
      exact Bool.noConfusion this

theorem insertDesc_perm (x : String) :
    ∀ l, (insertDesc x l).Perm (x :: l) := by
  intro l
  induction l with
  | nil => rfl
  | cons y ys ih =>
    rw [insertDesc]
    by_cases h : strLtB x y = true
    · rw [if_pos h]
      exact ((ih.cons y).trans (List.Perm.swap x y ys))
    · rw [if_neg h]

theorem insertDesc_sorted (x : String) :
    ∀ l, l.Pairwise (fun a b => strLtB a b = false) →
      (insertDesc x l).Pairwise (fun a b => strLtB a b = false) := by
  intro l
  induction l with
  | nil => intro _; rw [insertDesc]; simp
  | cons y ys ih =>
    intro h
    obtain ⟨hy, hys⟩ := List.pairwise_cons.1 h
    rw [insertDesc]
    by_cases hxy : strLtB x y = true
    · rw [if_pos hxy]
      refine List.pairwise_cons.2 ⟨?_, ih hys⟩
      intro z hz
      rcases List.mem_cons.1 (((insertDesc_perm x ys).mem_iff).1 hz) with hz | hz
      · subst hz
        exact lexLt_asymm _ _ hxy
      · exact hy z hz
    · rw [if_neg hxy]
      refine List.pairwise_cons.2 ⟨?_, h⟩
      intro z hz
      rcases List.mem_cons.1 hz with hz | hz
      · subst hz
        exact Bool.eq_false_iff.2 hxy
      · exact strLtB_ge_trans (Bool.eq_false_iff.2 hxy) (hy z hz)

theorem sortDesc_perm : ∀ l, (sortDesc l).Perm l := by
  intro l
  induction l with
  | nil => rfl
  | cons x xs ih =>
    rw [sortDesc]
    exact (insertDesc_perm x (sortDesc xs)).trans (ih.cons x)

theorem sortDesc_sorted : ∀ l, (sortDesc l).Pairwise (fun a b => strLtB a b = false) := by
  intro l
  induction l with
  | nil => simp [sortDesc]
  | cons x xs ih => rw [sortDesc]; exact insertDesc_sorted x _ ih

/-- **C2.** The previous-version lookup returns `none` with fewer than
two snapshots; with at least two (distinct) snapshots it returns the
entry at the second position of the descending sort — the most recent
snapshot strictly older than the newest one; and on snapshots dated
2025-07-28, 2025-07-29, 2025-07-30 it returns the 2025-07-29 one. -/
theorem previous_version_spec :
    (∀ dates : List String, dates.length < 2 → get_previous_version dates = none) ∧
    (∀ dates : List String, 2 ≤ dates.length → dates.Nodup →
      ∃ top second, get_previous_version dates = some second ∧
        top ∈ dates ∧ second ∈ dates ∧ strLtB second top = true ∧
        (∀ x ∈ dates, strLtB top x = false) ∧
        (∀ x ∈ dates, x ≠ top → strLtB second x = false)) ∧
    get_previous_version
        ["2025-07-28.html", "2025-07-29.html", "2025-07-30.html"]
      = some "2025-07-29.html" := by
  refine ⟨?_, ?_, by decide⟩
  · intro dates h
    rw [get_previous_version, if_pos h]
  · intro dates h2 hnd
    have hperm := sortDesc_perm dates
    have hsorted := sortDesc_sorted dates
    have hlen : 2 ≤ (sortDesc dates).length := by
      rw [hperm.length_eq]; exact h2
    obtain ⟨d0, d1, rest, hs⟩ :
        ∃ d0 d1 rest, sortDesc dates = d0 :: d1 :: rest := by
      rcases hsd : sortDesc dates with _ | ⟨d0, _ | ⟨d1, rest⟩⟩
      · rw [hsd] at hlen; simp at hlen
      · rw [hsd] at hlen; simp at hlen
      · exact ⟨d0, d1, rest, rfl⟩
    have hmem : ∀ x, x ∈ sortDesc dates ↔ x ∈ dates := fun x => hperm.mem_iff
    rw [hs] at hperm hsorted
    obtain ⟨h0, hsorted'⟩ := List.pairwise_cons.1 hsorted
    obtain ⟨h1, _⟩ := List.pairwise_cons.1 hsorted'
    have hd0 : d0 ∈ dates := hperm.mem_iff.1 (List.mem_cons_self _ _)
    have hd1 : d1 ∈ dates :=
      hperm.mem_iff.1 (List.mem_cons_of_mem _ (List.mem_cons_self _ _))
    have hnd' : (d0 :: d1 :: rest).Nodup := hperm.nodup_iff.2 hnd
    have hne : d0 ≠ d1 := by
      intro hEq
      exact (List.nodup_cons.1 hnd').1 (hEq ▸ List.mem_cons_self _ _)
    refine ⟨d0, d1, ?_, hd0, hd1, ?_, ?_, ?_⟩
    · rw [get_previous_version, if_neg (not_lt.2 h2), hs]
      simp
    · cases hc : strLtB d1 d0
      · exact absurd (strLtB_conn (h0 d1 (List.mem_cons_self _ _)) hc) hne
      · rfl
    · intro x hx
      rcases List.mem_cons.1 (hperm.mem_iff.2 hx) with hx' | hx'
      · subst hx'; exact strLtB_irrefl _
      · exact h0 x hx'
    · intro x hx hxne
      rcases List.mem_cons.1 (hperm.mem_iff.2 hx) with hx' | hx'
      · exact absurd hx' hxne
      · rcases List.mem_cons.1 hx' with hx'' | hx''
        · subst hx''; exact strLtB_irrefl _
        · exact h1 x hx''

theorem previous_version_spec_witness :
    ∃ top second,
      get_previous_version ["2025-07-29.html", "2025-07-28.html"] = some second ∧
      top ∈ ["2025-07-29.html", "2025-07-28.html"] ∧
      second ∈ ["2025-07-29.html", "2025-07-28.html"] ∧
      strLtB second top = true ∧
      (∀ x ∈ ["2025-07-29.html", "2025-07-28.html"], strLtB top x = false) ∧
      (∀ x ∈ ["2025-07-29.html", "2025-07-28.html"], x ≠ top →
        strLtB second x = false) :=
  previous_version_spec.2.1 ["2025-07-29.html", "2025-07-28.html"]
    (by decide) (by decide)

/-- `find_all` is the document-order element list filtered by tag. -/
theorem findAllList_eq_filter (tags : List String) :
    ∀ l : List Node, findAllList tags l = (elemsList l).filter (tagIn tags) :=
  @elemsList.induct
    (fun n => findAllNode tags n = (elemsNode n).filter (tagIn tags))
    (fun l => findAllList tags l = (elemsList l).filter (tagIn tags))
    (fun _ => rfl)
    (fun t attrs ch ih => by
      show (if tags.contains t then [Node.elem t attrs ch] else []) ++
          findAllList tags ch
        = List.filter (tagIn tags) (Node.elem t attrs ch :: elemsList ch)
      rw [List.filter_cons, ih]
      by_cases h : t ∈ tags
      · simp [tagIn, h]
      · simp [tagIn, h])
    rfl
    (fun c cs ih1 ih2 => by
      show findAllNode tags c ++ findAllList tags cs
        = List.filter (tagIn tags) (elemsNode c ++ elemsList cs)
      rw [List.filter_append, ih1, ih2])

theorem findAllIn_eq_filter (tags : List String) (n : Node) :
    findAllIn tags n = (childElems n).filter (tagIn tags) := by
  cases n with
  | text s => rfl
  | elem t attrs ch =>
    simpa [findAllIn, childElems] using findAllList_eq_filter tags ch

theorem length_pos_ne_empty {s : String} (h : 0 < s.length) : s ≠ "" := by
  intro hEq
  rw [hEq] at h
  simp [String.length] at h

/-- The extracted unit sequence decomposes into the five spec-side
segments. -/
theorem extract_segments (doc : List Node) :
    extract_text_content doc =
      specTitleUnits doc ++
      (List.range' 1 6).flatMap (fun lvl => specHeadingUnits doc lvl) ++
      specParagraphUnits doc ++
      specListItemUnits doc ++
      specLinkUnits doc := by
  have hpar : ∀ l : List Node,
      l.filterMap (fun p =>
        if pyStrip (getText p) ≠ "" ∧ 10 < (pyStrip (getText p)).length then
          some ("PARAGRAPH: " ++ pyStrip (getText p))
        else none) =
      l.filterMap (fun p =>
        if 10 < (pyStrip (getText p)).length then
          some ("PARAGRAPH: " ++ pyStrip (getText p))
        else none) := by
    intro l
    apply List.filterMap_congr
    intro p _
    by_cases h : 10 < (pyStrip (getText p)).length
    · rw [if_pos ⟨length_pos_ne_empty (by omega), h⟩, if_pos h]
    · rw [if_neg (fun hc => h hc.2), if_neg h]
  have hlink : ∀ l : List Node,
      l.filterMap (fun link =>
        if pyStrip (getText link) ≠ "" ∧ 2 < (pyStrip (getText link)).length ∧
            ¬ pyStartsWith (pyStrip (getText link)) "http" then
          some ("LINK: " ++ pyStrip (getText link) ++ " (" ++
            getAttr link "href" ++ ")")
        else none) =
      l.filterMap linkUnitSpec := by
    intro l
    apply List.filterMap_congr
    intro a _
    rw [linkUnitSpec]
    by_cases h2 : 2 < (pyStrip (getText a)).length
    · by_cases hh : pyStartsWith (pyStrip (getText a)) "http"
      · rw [if_neg (by simp [hh]), if_neg (by simp [hh])]
      · rw [if_pos ⟨length_pos_ne_empty (by omega), h2, hh⟩,
          if_pos ⟨h2, by simpa using hh⟩]
    · rw [if_neg (by omega), if_neg (by omega)]
  simp only [extract_text_content, specTitleUnits, specHeadingUnits,
    specParagraphUnits, specListItemUnits, specLinkUnits, docElems,
    findAllList_eq_filter, findAllIn_eq_filter, hpar, hlink]

/-- **C3** (amended at the ListItem segment).  The extracted unit
sequence is exactly: the Title unit (if any), then the Headings grouped
by level 1–6 in document order within each level, then the Paragraphs in
document order, then the ListItem units emitted per enclosing ul/ol
element (each list's descendant items in document order — not one unit
per item in global document order), then the Links in document order. -/
theorem extract_text_content_order (doc : List Node) :
    extract_text_content doc =
      specTitleUnits doc ++
      (List.range' 1 6).flatMap (fun lvl => specHeadingUnits doc lvl) ++
      specParagraphUnits doc ++
      specListItemUnits doc ++
      specLinkUnits doc :=
  extract_segments doc

/-- **C3 counterexample.**  With a list nested inside another list, the
ListItem segment is not "all ListItem units in document order": the code
emits `A, B, C, B` (the inner item once per enclosing list, after the
later outer item), while one unit per li element in document order would
be `A, B, C`. -/
theorem extract_text_content_order_counterexample :
    extract_text_content nestedListDoc =
      ["LIST ITEM: A", "LIST ITEM: B", "LIST ITEM: C", "LIST ITEM: B"] ∧
    docOrderListItemUnits nestedListDoc =
      ["LIST ITEM: A", "LIST ITEM: B", "LIST ITEM: C"] ∧
    extract_text_content nestedListDoc ≠
      specTitleUnits nestedListDoc ++
      (List.range' 1 6).flatMap (fun lvl => specHeadingUnits nestedListDoc lvl) ++
      specParagraphUnits nestedListDoc ++
      docOrderListItemUnits nestedListDoc ++
      specLinkUnits nestedListDoc := by
  refine ⟨by decide, by decide, ?_⟩
  intro h
  rw [show extract_text_content nestedListDoc =
    ["LIST ITEM: A", "LIST ITEM: B", "LIST ITEM: C", "LIST ITEM: B"] by decide] at h
  rw [show specTitleUnits nestedListDoc ++
      (List.range' 1 6).flatMap (fun lvl => specHeadingUnits nestedListDoc lvl) ++
      specParagraphUnits nestedListDoc ++
      docOrderListItemUnits nestedListDoc ++
      specLinkUnits nestedListDoc =
      ["LIST ITEM: A", "LIST ITEM: B", "LIST ITEM: C"] by decide] at h
  exact absurd h (by decide)

/-- **C6.**  The extracted sequence ends with the Link segment: one unit
per hyperlink element in document order, emitted iff the trimmed display
text is longer than 2 characters and does not start with the URL scheme
prefix `http` (the code's `text.startswith('http')` test), capturing the
display text and the raw href attribute. -/
theorem link_extraction_rule (doc : List Node) :
    (∃ pre, extract_text_content doc =
      pre ++ ((docElems doc).filter (tagIn ["a"])).filterMap linkUnitSpec) ∧
    (∀ l : Node, (linkUnitSpec l).isSome ↔
      (2 < (pyStrip (getText l)).length ∧
        pyStartsWith (pyStrip (getText l)) "http" = false)) ∧
    (∀ l : Node, linkUnitSpec l = none ∨
      linkUnitSpec l = some ("LINK: " ++ pyStrip (getText l) ++ " (" ++
        getAttr l "href" ++ ")")) := by
  refine ⟨⟨specTitleUnits doc ++
    (List.range' 1 6).flatMap (fun lvl => specHeadingUnits doc lvl) ++
    specParagraphUnits doc ++ specListItemUnits doc, ?_⟩, ?_, ?_⟩
  · rw [extract_segments doc, specLinkUnits]
  · intro l
    rw [linkUnitSpec]
    by_cases h : 2 < (pyStrip (getText l)).length ∧
        pyStartsWith (pyStrip (getText l)) "http" = false
    · simp [h]
    · simp only [if_neg h]
      simpa using h
  · intro l
    rw [linkUnitSpec]
    by_cases h : 2 < (pyStrip (getText l)).length ∧
        pyStartsWith (pyStrip (getText l)) "http" = false
    · exact Or.inr (by rw [if_pos h])
    · exact Or.inl (by rw [if_neg h])

theorem count_flatMap {α β : Type} [DecidableEq β] (f : α → List β) (u : β) :
    ∀ l : List α, ((l.flatMap f).count u) = (l.map (fun x => (f x).count u)).sum := by
  intro l
  induction l with
  | nil => rfl
  | cons x xs ih => simp [List.flatMap_cons, List.count_append, ih]

/-- **C10.**  Each list item produces one ListItem unit per enclosing
ul/ol element: the ListItem segment is the concatenation over all ul/ol
elements (in document order) of their descendant items' units, so its
unit counts are the sums of the per-list counts; in the nested-list
example the inner item's unit appears twice while the document has only
one li element with that text (of three li elements in total). -/
theorem list_items_per_enclosing_list :
    (∀ (doc : List Node) (u : String),
      (specListItemUnits doc).count u =
        (((docElems doc).filter (tagIn ["ul", "ol"])).map (fun lst =>
          (((childElems lst).filter (tagIn ["li"])).filterMap (fun item =>
            if pyStrip (getText item) ≠ "" then
              some ("LIST ITEM: " ++ pyStrip (getText item))
            else none)).count u)).sum) ∧
    (extract_text_content nestedListDoc).count "LIST ITEM: B" = 2 ∧
    (docOrderListItemUnits nestedListDoc).count "LIST ITEM: B" = 1 ∧
    ((docElems nestedListDoc).filter (tagIn ["li"])).length = 3 := by
  refine ⟨?_, by decide, by decide, by decide⟩
  intro doc u
  rw [specListItemUnits]
  exact count_flatMap _ _ _

/-- **C5.**  When no stylesheet fetch returns status 200 — every fetch
either raises (network error, timeout) or returns a non-200 status such
as 404 — the CSS inliner returns the document unchanged; no exception
escapes (the embedding is a total function whose per-link failure
branches all preserve the node). -/
theorem embed_css_failure_keeps_document (fetch : String → FetchOutcome)
    (resolve : String → String)
    (hfetch : ∀ u body, fetch u ≠ .resp 200 body) :
    ∀ doc : List Node, embedCssList fetch resolve doc = doc :=
  @elemsList.induct
    (fun n => embedCssNode fetch resolve n = n)
    (fun l => embedCssList fetch resolve l = l)
    (fun _ => rfl)
    (fun t attrs ch ih => by
      show (if t = "link" ∧ relStylesheet attrs then
          match attrs.lookup "href" with
          | some href =>
            if href ≠ "" then
              match fetch (resolve href) with
              | .resp status body =>
                if status = 200 then Node.elem "style" [] [.text body]
                else Node.elem t attrs (embedCssList fetch resolve ch)
              | .error => Node.elem t attrs (embedCssList fetch resolve ch)
            else Node.elem t attrs (embedCssList fetch resolve ch)
          | none => Node.elem t attrs (embedCssList fetch resolve ch)
        else Node.elem t attrs (embedCssList fetch resolve ch))
        = Node.elem t attrs ch
      by_cases hlink : t = "link" ∧ relStylesheet attrs
      · rw [if_pos hlink]
        rcases hhref : attrs.lookup "href" with _ | href
        · show Node.elem t attrs (embedCssList fetch resolve ch) = Node.elem t attrs ch
          rw [ih]
        · show (if href ≠ "" then
              match fetch (resolve href) with
              | FetchOutcome.resp status body =>
                if status = 200 then Node.elem "style" [] [Node.text body]
                else Node.elem t attrs (embedCssList fetch resolve ch)
              | FetchOutcome.error => Node.elem t attrs (embedCssList fetch resolve ch)
            else Node.elem t attrs (embedCssList fetch resolve ch))
            = Node.elem t attrs ch
          by_cases hne : href ≠ ""
          · rw [if_pos hne]
            rcases hf : fetch (resolve href) with _ | ⟨s, b⟩
            · show Node.elem t attrs (embedCssList fetch resolve ch) = Node.elem t attrs ch
              rw [ih]
            · have hs : s ≠ 200 := fun hEq => hfetch _ b (by rw [hf, hEq])
              show (if s = 200 then Node.elem "style" [] [Node.text b]
                else Node.elem t attrs (embedCssList fetch resolve ch))
                = Node.elem t attrs ch
              rw [if_neg hs, ih]
          · rw [if_neg hne, ih]
      · rw [if_neg hlink, ih])
    rfl
    (fun c cs ih1 ih2 => by
      show embedCssNode fetch resolve c :: embedCssList fetch resolve cs = c :: cs
      rw [ih1, ih2])

theorem embed_css_failure_keeps_document_witness :
    embedCssList (fun _ => .resp 404 "") (fun u => u) cssDoc = cssDoc :=
  embed_css_failure_keeps_document (fun _ => .resp 404 "") (fun u => u)
    (fun u body h => by simp at h) cssDoc

/-- **C7.** Diffing `["TITLE: A", "PARAGRAPH: hello"]` against
`["TITLE: A", "PARAGRAPH: hello world"]` produces one Equal run (the
title) and one Replace run (paragraph to paragraph), with
`modified = 1`, `total_changes = 1`, `unchanged = 1` and
`change_percentage = 25`. -/
theorem analyze_changes_scenario :
    getOpcodes ["TITLE: A", "PARAGRAPH: hello"]
        ["TITLE: A", "PARAGRAPH: hello world"] =
      [⟨.equal, 0, 1, 0, 1⟩, ⟨.replace, 1, 2, 1, 2⟩] ∧
    (analyze_changes ["TITLE: A", "PARAGRAPH: hello"]
        ["TITLE: A", "PARAGRAPH: hello world"]).modified = 1 ∧
    (analyze_changes ["TITLE: A", "PARAGRAPH: hello"]
        ["TITLE: A", "PARAGRAPH: hello world"]).total_changes = 1 ∧
    (analyze_changes ["TITLE: A", "PARAGRAPH: hello"]
        ["TITLE: A", "PARAGRAPH: hello world"]).unchanged = 1 ∧
    (analyze_changes ["TITLE: A", "PARAGRAPH: hello"]
        ["TITLE: A", "PARAGRAPH: hello world"]).change_percentage = 25 := by
  have hops : getOpcodes ["TITLE: A", "PARAGRAPH: hello"]
      ["TITLE: A", "PARAGRAPH: hello world"] =
      [⟨.equal, 0, 1, 0, 1⟩, ⟨.replace, 1, 2, 1, 2⟩] := by decide
  have h := analyze_changes_fields
    ["TITLE: A", "PARAGRAPH: hello"] ["TITLE: A", "PARAGRAPH: hello world"]
  rw [hops] at h
  refine ⟨hops, ?_, ?_, ?_, ?_⟩
  · rw [h.1]; decide
  · rw [h.2.2.2.2.1]; decide
  · rw [h.2.2.2.1]; decide
  · rw [h.2.2.2.2.2]; norm_num [specTotalChanges]

end WebTracker
